import Mathlib

/-!
# api-throttling: sliding-window throttle (`server/main.go`) and
# rate-limited requester (`client/main.go`)

Shallow embedding of the two Go programs.

Conventions of the embedding

* `time.Time` is an integer number of nanoseconds counted from the zero
  `time.Time` (the value Go gives to a fresh slot of `make([]time.Time, n)`),
  so the zero time is `0`.  `tt.After(u)` is `u < tt` and `t.Add(d)` is `t + d`.
  The wall clock and the monotonic clock are taken to agree.
* Go `int` values are `Int`.
* A Go `error` is `Option String`: `none` is `nil`, `some msg` an error value.
* A run-time panic (negative `make` length, index out of range, nil
  dereference) is the `none` result of an `Option`-valued function.
  `make` is taken to succeed for every length that is not negative: the
  largest length the Go runtime can allocate is not modelled.
* `time.Now()` is not a function of the state; each call site takes the clock
  reading as an argument.  `Try` reads the clock twice (once inside `Allow`,
  once for `AddReq`), so it takes two readings.
* Mutexes are not modelled in the throttle: calls run one after the other.
-/

namespace Throttling

/-! ## Time -/

/-- Nanoseconds elapsed since the zero `time.Time`. -/
abbrev Time := Int

/-- The zero value of `time.Time`. -/
def zeroTime : Time := 0

/-- The duration `time.Minute`, in nanoseconds. -/
def Minute : Int := 60000000000

/-- The duration `time.Second`, in nanoseconds. -/
def Second : Int := 1000000000

/-- The method `tt.After(u)`: `tt` is strictly later than `u`. -/
def After (tt u : Time) : Bool := decide (u < tt)

/-- The method `t.Add(d)`. -/
def Add (t : Time) (d : Int) : Time := t + d

/-- A Go `error`: `none` is `nil`. -/
abbrev error := Option String

/-! ## `server/main.go` -/

/-- The struct `Limit`. -/
structure Limit where
  limit : Int
  lastReqs : List Time
deriving DecidableEq, Repr

/-- The function `NewLimit`: `make([]time.Time, limit)` gives `limit` zero
times, and panics when `limit` is negative. -/
def NewLimit (limit : Int) : Option Limit :=
  if limit < 0 then none
  else some { limit := limit, lastReqs := List.replicate limit.toNat zeroTime }

/-- Slice read `xs[i]` with a Go `int` index; `none` is the index-out-of-range
panic. -/
def readAt (xs : List Time) (i : Int) : Option Time :=
  if 0 ≤ i ∧ i < xs.length then xs[i.toNat]? else none

/-- Slice write `xs[i] = v` with a Go `int` index; `none` is the
index-out-of-range panic. -/
def writeAt (xs : List Time) (i : Int) (v : Time) : Option (List Time) :=
  if 0 ≤ i ∧ i < xs.length then some (xs.set i.toNat v) else none

/-- One pass of the loop body of `AddReq`: `lastReqs[i-1] = lastReqs[i]`. -/
def shiftStep (xs : List Time) (i : Int) : Option (List Time) :=
  match readAt xs i with
  | none => none
  | some v => writeAt xs (i - 1) v

/-- The loop `for i := 1; i < len(l.lastReqs); i++` of `AddReq`. -/
def shiftLoop (xs : List Time) : Option (List Time) :=
  (List.range' 1 (xs.length - 1)).foldlM (fun ys (i : Nat) => shiftStep ys (i : Int)) xs

/-- The method `Limit.AddReq`.  In the full branch the loop shifts the slots
to the left and line 27 writes the last slot, at index `len(l.lastReqs)-1`. -/
def AddReq (l : Limit) (t : Time) : Option Limit :=
  if (l.lastReqs.length : Int) = l.limit then
    match shiftLoop l.lastReqs with
    | none => none
    | some xs =>
      match writeAt xs ((xs.length : Int) - 1) t with
      | none => none
      | some ys => some { l with lastReqs := ys }
  else
    some { l with lastReqs := l.lastReqs ++ [t] }

/-- The struct `Throttler`; the Go map `m` is a finite partial function. -/
structure Throttler where
  limit : Int
  m : String → Option Limit

/-- The function `NewThrottler`. -/
def NewThrottler (limit : Int) : Throttler :=
  { limit := limit, m := fun _ => none }

/-- Map assignment `t.m[userID] = l`. -/
def Throttler.store (t : Throttler) (userID : String) (l : Limit) : Throttler :=
  { t with m := fun k => if k = userID then some l else t.m k }

/-- Lines 50-54 of `Allow`: create the record when the key has none, then
read `t.m[userID]`. -/
def Throttler.load (t : Throttler) (userID : String) : Option (Throttler × Limit) :=
  match t.m userID with
  | some l => some (t, l)
  | none =>
    match NewLimit t.limit with
    | none => none
    | some l => some (t.store userID l, l)

/-- The counting loop of `Allow` (lines 58-64). -/
def countLoop (lastReqs : List Time) (currentTime : Time) : Int :=
  lastReqs.foldl
    (fun count tt => if After tt (Add currentTime (-1 * Minute)) then count + 1 else count) 0

/-- The method `Throttler.Allow`, with the reading of `time.Now()` as argument.
It returns the throttler after the lazy creation of the record. -/
def Throttler.Allow (t : Throttler) (userID : String) (currentTime : Time) :
    Option (Throttler × Bool) :=
  match t.load userID with
  | none => none
  | some (t1, limit) =>
    let count := countLoop limit.lastReqs currentTime
    if count < t1.limit then some (t1, true) else some (t1, false)

/-- The package variable `LimitedErr`. -/
def LimitedErr : error := some "limited"

/-- The method `Throttler.Try`.  `now1` is the clock read inside `Allow`,
`now2` the clock read for `AddReq`. -/
def Throttler.Try (t : Throttler) (userID : String) (now1 now2 : Time) :
    Option (Throttler × error) :=
  match t.Allow userID now1 with
  | none => none
  | some (t1, allowed) =>
    if !allowed then some (t1, LimitedErr)
    else
      match t1.m userID with
      | none => none
      | some l =>
        match AddReq l now2 with
        | none => none
        | some l2 => some (t1.store userID l2, none)

/-! ### Runs of the throttle -/

/-- One call of `Try`: the caller key and the two readings of `time.Now()`
the call makes (`now1` inside `Allow`, `now2` for `AddReq`). -/
structure Call where
  userID : String
  now1 : Time
  now2 : Time
deriving DecidableEq, Repr

/-- A sequence of `Try` calls made one after the other.  The result is the
final throttler and the error returned by each call, in call order; `none`
when some call panics. -/
def run (t : Throttler) : List Call → Option (Throttler × List error)
  | [] => some (t, [])
  | c :: cs =>
    match t.Try c.userID c.now1 c.now2 with
    | none => none
    | some (t1, e) =>
      match run t1 cs with
      | none => none
      | some (t2, es) => some (t2, e :: es)

/-- The clock readings of a run, in the order the program makes them. -/
def clockOf : List Call → List Time
  | [] => []
  | c :: cs => c.now1 :: c.now2 :: clockOf cs

/-- A non-decreasing clock: no reading is earlier than a previous one. -/
def NonDecreasing (ts : List Time) : Prop := ts.Pairwise (· ≤ ·)

instance (ts : List Time) : Decidable (NonDecreasing ts) := by
  unfold NonDecreasing; infer_instance

/-- The states a throttler built by `NewThrottler L` can be in: those
obtained from it by a sequence of `Try` calls. -/
def Reachable (L : Int) (t : Throttler) : Prop :=
  ∃ cs es, run (NewThrottler L) cs = some (t, es)

/-- The timestamps recorded by the admitted calls of key `k` in a run with
outcomes `es`, oldest first. -/
def admittedStamps (k : String) : List Call → List error → List Time
  | c :: cs, e :: es =>
    if c.userID = k ∧ e = none then c.now2 :: admittedStamps k cs es
    else admittedStamps k cs es
  | _, _ => []

/-- The outcomes of the calls of a run that are not made for key `a`. -/
def outcomesExcept (a : String) : List Call → List error → List error
  | c :: cs, e :: es =>
    if c.userID = a then outcomesExcept a cs es else e :: outcomesExcept a cs es
  | _, _ => []

/-- Spec wording of the count: the number of timestamps of a record that are
strictly after `now - window`, the window being one minute. -/
def inWindow (record : List Time) (now : Time) : Nat :=
  record.countP (fun tt => decide (now - Minute < tt))

/-- Well-formed throttler: the limit is not negative and every record was
made for that limit and holds exactly that many slots. -/
def WF (t : Throttler) : Prop :=
  0 ≤ t.limit ∧
    ∀ k l, t.m k = some l → l.limit = t.limit ∧ (l.lastReqs.length : Int) = t.limit

/-- The timestamps `Allow` counts for a key: the slots of the key's record,
and for a key that has no record yet the slots of the record that the next
call creates with `NewLimit`. -/
def recordOf (t : Throttler) (k : String) : List Time :=
  match t.m k with
  | some l => l.lastReqs
  | none => List.replicate t.limit.toNat zeroTime

/-- The last `n` entries of a list. -/
def lastN (n : Nat) (xs : List Time) : List Time := xs.drop (xs.length - n)

/-- The scenario of the specification for key `"u1"` and limit 2: four calls
at 0 s, 10 s, 20 s and 61 s after the clock reading `T0`. -/
def scenarioU1 (T0 : Time) : List Call :=
  [⟨"u1", T0, T0⟩,
   ⟨"u1", T0 + 10 * Second, T0 + 10 * Second⟩,
   ⟨"u1", T0 + 20 * Second, T0 + 20 * Second⟩,
   ⟨"u1", T0 + 61 * Second, T0 + 61 * Second⟩]

/-- Two calls of key `"u1"`, one window and 10 s later after the zero time. -/
def twoCallsU1 : List Call :=
  [⟨"u1", Minute, Minute⟩, ⟨"u1", Minute + 10 * Second, Minute + 10 * Second⟩]

/-- The throttler of limit 2 after the two calls `twoCallsU1`. -/
def afterTwoCallsU1 : Throttler :=
  (((NewThrottler 2).store "u1" ⟨2, [0, 0]⟩).store "u1" ⟨2, [0, Minute]⟩).store "u1"
    ⟨2, [Minute, Minute + 10 * Second]⟩

/-- A throttler of limit 3 in which key `"u1"` holds a full record. -/
def fullU1 : Throttler := (NewThrottler 3).store "u1" ⟨3, [Minute, 2 * Minute, 3 * Minute]⟩

/-- Calls of two keys `"A"` and `"B"`, the quota 2 of `"A"` being exhausted. -/
def callsAB : List Call :=
  [⟨"A", Minute, Minute⟩, ⟨"B", Minute + Second, Minute + Second⟩,
   ⟨"A", Minute + 2 * Second, Minute + 2 * Second⟩,
   ⟨"A", Minute + 3 * Second, Minute + 3 * Second⟩,
   ⟨"B", Minute + 4 * Second, Minute + 4 * Second⟩,
   ⟨"B", Minute + 5 * Second, Minute + 5 * Second⟩]

/-! ## `client/main.go`

The requester is concurrent: `Start` runs a loop that starts goroutines, every
`Send` runs in the goroutine of its caller, and they meet on channels.  It is
embedded as a transition system.  A state records where each goroutine
stands; an `Event` is one atomic step of one goroutine (or one rendezvous on a
channel), and `step` is defined only when the program can take that step in
that state.  A goroutine that is blocked is one none of whose events is
enabled.  `runTrace` runs a schedule, a list of events.

`*http.Request` and `*http.Response` are opaque; they are natural numbers
here.  The executor `rlr.client.Do` is outside the program: the result of each
invocation is supplied by the `workerDo` event, and every invocation is written
to a log together with the number of interval pauses finished so far.
The counter `c` is incremented atomically. -/

/-- An opaque `*http.Request`. -/
abbrev Request := Nat

/-- An opaque `*http.Response`. -/
abbrev Response := Nat

/-- The struct `RespErr`; a nil `Resp` is `none`. -/
structure RespErr where
  Resp : Option Response
  Err : error
deriving DecidableEq, Repr

/-- The exported fields of the struct `RateLimiter`; its channel `q` is part of
the state of the system below. -/
structure RateLimiter where
  QSize : Int
  Interval : Int
  Count : Int
deriving DecidableEq, Repr

/-- Where one call of `Send` and the worker serving it stand. -/
inductive Phase where
  /-- `Send` returned `nil, fmt.Errorf("queue is full")` at line 82. -/
  | rejected
  /-- `Send` made `respCh` and is at the channel send of line 86. -/
  | sending
  /-- The `ReqChan` of this call sits in the buffer of `q`; `Send` waits at
  line 91. -/
  | queued
  /-- A worker received the `ReqChan` at line 52; `Send` waits at line 91. -/
  | received
  /-- The worker has run `rlr.c++` (lines 54-56). -/
  | counted
  /-- The worker has run `rlr.client.Do` and built `respErr` (lines 58-62). -/
  | executed (respErr : RespErr)
  /-- The worker sent `respErr` on `req.ch` (line 63) and `Send` received it
  (line 91); the worker is finished. -/
  | delivered (respErr : RespErr)
  /-- `Send` closed `respCh` and returned (lines 92-98). -/
  | returned (resp : Option Response) (err : error)
deriving DecidableEq, Repr

/-- One call of `Send`: its argument and where it stands. -/
structure SendCall where
  req : Request
  phase : Phase
deriving DecidableEq, Repr

/-- Where the `for` loop of `Start` stands. -/
inductive LoopPC where
  /-- `Start` has not been called. -/
  | notStarted
  /-- Before the `go` statement of line 51. -/
  | spawn
  /-- Before the test of line 66. -/
  | check
  /-- Inside `time.Sleep(rlr.rl.Interval)` of line 67. -/
  | sleeping
deriving DecidableEq, Repr

/-- One invocation of the executor `rlr.client.Do`: the call of `Send` it
serves, the number of interval pauses finished when it starts, its result. -/
structure DoCall where
  id : Nat
  pauses : Nat
  out : RespErr
deriving DecidableEq, Repr

/-- The state of a `RateLimitedRequester` and of the goroutines around it.
`qcap` and `qbuf` are the capacity and the buffer of the channel `rl.q` (the
buffer holds indices into `sends`), `c` is the counter, `idle` the number of
goroutines of `Start` blocked at the receive of line 52. -/
structure RateLimitedRequester where
  rl : RateLimiter
  qcap : Nat
  qbuf : List Nat
  c : Int
  loop : LoopPC
  idle : Nat
  pauses : Nat
  sends : List SendCall
  log : List DoCall
deriving DecidableEq, Repr

/-- The function `NewRateLimitedRequester`.  `make(chan ReqChan)` has no
capacity argument: the channel is unbuffered. -/
def NewRateLimitedRequester (qSize : Int) (interval : Int) (count : Int) :
    RateLimitedRequester :=
  { rl := { QSize := qSize, Interval := interval, Count := count }
    qcap := 0
    qbuf := []
    c := 0
    loop := LoopPC.notStarted
    idle := 0
    pauses := 0
    sends := []
    log := [] }

/-- The builtin `len(rlr.rl.q)`: the number of elements in the buffer. -/
def RateLimitedRequester.lenQ (d : RateLimitedRequester) : Int := (d.qbuf.length : Int)

/-- The phase of the `i`-th call of `Send`. -/
def RateLimitedRequester.phaseOf (d : RateLimitedRequester) (i : Nat) : Option Phase :=
  d.sends[i]?.map (·.phase)

/-- Move the `i`-th call of `Send` to a new phase. -/
def RateLimitedRequester.setPhase (d : RateLimitedRequester) (i : Nat) (ph : Phase) :
    RateLimitedRequester :=
  { d with sends := d.sends.modify (fun sc => { sc with phase := ph }) i }

/-- The last lines of `Send` (94-98): what it returns for a received `respErr`. -/
def sendResult (respErr : RespErr) : Option Response × error :=
  if respErr.Err ≠ none then (none, respErr.Err) else (respErr.Resp, none)

/-- The error of line 82. -/
def queueFullErr : error := some "queue is full"

/-- The atomic steps of the system. -/
inductive Event where
  /-- `Start` is called. -/
  | startCall
  /-- Line 51: the loop starts one more goroutine, which blocks at line 52. -/
  | loopSpawn
  /-- Line 66: the loop compares `rlr.c` with `rlr.rl.Count` and, when they are
  equal, enters the sleep of line 67. -/
  | loopCheck
  /-- The sleep of line 67 is over. -/
  | loopWake
  /-- A caller invokes `Send(r)`: the test of line 81, then either the return of
  line 82 or line 85 and the arrival at the send of line 86. -/
  | sendCall (r : Request)
  /-- Line 86 on a channel with free buffer space: the value is buffered. -/
  | enqueue (i : Nat)
  /-- Line 52: an idle worker takes the oldest buffered value. -/
  | dequeue
  /-- Lines 86 and 52 meet: call `i` hands its value to an idle worker. -/
  | handoff (i : Nat)
  /-- Lines 54-56 of the worker serving call `i`. -/
  | workerInc (i : Nat)
  /-- Lines 58-62 of the worker serving call `i`; the executor returns
  `resp, err`. -/
  | workerDo (i : Nat) (resp : Option Response) (err : error)
  /-- Lines 63 and 91 meet: the worker hands `respErr` to call `i`. -/
  | workerDeliver (i : Nat)
  /-- Lines 92-98 of call `i`. -/
  | sendReturn (i : Nat)
deriving DecidableEq, Repr

/-- One step of the system; `none` when the event is not enabled. -/
def step (d : RateLimitedRequester) : Event → Option RateLimitedRequester
  | Event.startCall =>
    if d.loop = LoopPC.notStarted then some { d with loop := LoopPC.spawn } else none
  | Event.loopSpawn =>
    if d.loop = LoopPC.spawn then some { d with idle := d.idle + 1, loop := LoopPC.check }
    else none
  | Event.loopCheck =>
    if d.loop = LoopPC.check then
      if d.c = d.rl.Count then some { d with loop := LoopPC.sleeping }
      else some { d with loop := LoopPC.spawn }
    else none
  | Event.loopWake =>
    if d.loop = LoopPC.sleeping then
      some { d with loop := LoopPC.spawn, pauses := d.pauses + 1 }
    else none
  | Event.sendCall r =>
    if d.rl.QSize = d.lenQ then some { d with sends := d.sends ++ [⟨r, Phase.rejected⟩] }
    else some { d with sends := d.sends ++ [⟨r, Phase.sending⟩] }
  | Event.enqueue i =>
    if d.phaseOf i = some Phase.sending ∧ d.qbuf.length < d.qcap then
      some ({ d with qbuf := d.qbuf ++ [i] }.setPhase i Phase.queued)
    else none
  | Event.dequeue =>
    match d.qbuf with
    | [] => none
    | i :: rest =>
      if 0 < d.idle then
        some ({ d with qbuf := rest, idle := d.idle - 1 }.setPhase i Phase.received)
      else none
  | Event.handoff i =>
    if d.phaseOf i = some Phase.sending ∧ 0 < d.idle ∧ d.qbuf = [] then
      some ({ d with idle := d.idle - 1 }.setPhase i Phase.received)
    else none
  | Event.workerInc i =>
    if d.phaseOf i = some Phase.received then
      some ({ d with c := d.c + 1 }.setPhase i Phase.counted)
    else none
  | Event.workerDo i resp err =>
    if d.phaseOf i = some Phase.counted then
      some ({ d with log := d.log ++ [DoCall.mk i d.pauses ⟨resp, err⟩] }.setPhase i
        (Phase.executed ⟨resp, err⟩))
    else none
  | Event.workerDeliver i =>
    match d.phaseOf i with
    | some (Phase.executed respErr) => some (d.setPhase i (Phase.delivered respErr))
    | _ => none
  | Event.sendReturn i =>
    match d.phaseOf i with
    | some (Phase.delivered respErr) =>
      some (d.setPhase i (Phase.returned (sendResult respErr).1 (sendResult respErr).2))
    | _ => none

/-- Run a schedule; `none` when one of its events is not enabled. -/
def runTrace (d : RateLimitedRequester) : List Event → Option RateLimitedRequester
  | [] => some d
  | ev :: evs =>
    match step d ev with
    | none => none
    | some d1 => runTrace d1 evs

/-- What the `i`-th call of `Send` has returned, if it has returned. -/
def RateLimitedRequester.sendReturned (d : RateLimitedRequester) (i : Nat) :
    Option (Option Response × error) :=
  match d.phaseOf i with
  | some Phase.rejected => some (none, queueFullErr)
  | some (Phase.returned resp err) => some (resp, err)
  | _ => none

/-- The results of the executor invocations made for call `i`. -/
def RateLimitedRequester.doCallsOf (d : RateLimitedRequester) (i : Nat) : List RespErr :=
  (d.log.filter (fun e => decide (e.id = i))).map (·.out)

/-- The requester of `main`: `NewRateLimitedRequester(5, 1*time.Minute, 2)`. -/
def mainRequester : RateLimitedRequester := NewRateLimitedRequester 5 (1 * Minute) 2

/-- Six calls of `Send` with no call of `Start`. -/
def sixSends : List Event :=
  [Event.sendCall 1, Event.sendCall 2, Event.sendCall 3, Event.sendCall 4,
   Event.sendCall 5, Event.sendCall 6]

/-- `Start` runs three rounds of its loop, then three requests arrive one
after the other and each is taken by a waiting worker and executed. -/
def threeAtOnce : List Event :=
  [Event.startCall,
   Event.loopSpawn, Event.loopCheck, Event.loopSpawn, Event.loopCheck,
   Event.loopSpawn, Event.loopCheck,
   Event.sendCall 1, Event.sendCall 2, Event.sendCall 3,
   Event.handoff 0, Event.handoff 1, Event.handoff 2,
   Event.workerInc 0, Event.workerDo 0 (some 10) none,
   Event.workerInc 1, Event.workerDo 1 (some 20) none,
   Event.workerInc 2, Event.workerDo 2 (some 30) none]

/-- What the log must hold for a call in a given phase: nothing before the
worker has run the executor, exactly the one result the worker holds or has
delivered afterwards, and for a returned call exactly one result, of which the
returned values are `sendResult`. -/
def PhaseOK : Phase → List RespErr → Prop
  | Phase.executed respErr, l => l = [respErr]
  | Phase.delivered respErr, l => l = [respErr]
  | Phase.returned resp err, l => ∃ respErr, l = [respErr] ∧ (resp, err) = sendResult respErr
  | _, l => l = []

/-- Invariant of the system: the channel `q` is unbuffered and empty, the log
names only calls that exist, and the log agrees with the phase of every call. -/
def LogInv (d : RateLimitedRequester) : Prop :=
  d.qcap = 0 ∧ d.qbuf = [] ∧ (∀ e ∈ d.log, e.id < d.sends.length) ∧
    ∀ i ph, d.phaseOf i = some ph → PhaseOK ph (d.doCallsOf i)

/-- One request served from end to end, the executor failing with `"boom"`. -/
def serveOne : List Event :=
  [Event.startCall, Event.loopSpawn, Event.sendCall 7, Event.handoff 0, Event.workerInc 0,
   Event.workerDo 0 none (some "boom"), Event.workerDeliver 0, Event.sendReturn 0]

/-- The state of `mainRequester` after `serveOne`. -/
def afterServeOne : RateLimitedRequester :=
  { rl := { QSize := 5, Interval := 1 * Minute, Count := 2 }
    qcap := 0
    qbuf := []
    c := 1
    loop := LoopPC.check
    idle := 0
    pauses := 0
    sends := [⟨7, Phase.returned none (some "boom")⟩]
    log := [⟨0, 0, ⟨none, some "boom"⟩⟩] }

/-- A sequence of `AddReq` calls on one record, one after the other; `none`
when one of them panics. -/
def AddReqs : Limit → List Time → Option Limit
  | l, [] => some l
  | l, t :: ts =>
    match AddReq l t with
    | none => none
    | some l2 => AddReqs l2 ts

/-- The test of line 23 of `AddReq`: true selects the shifting branch, false
the `append` of line 31. -/
def shiftBranch (l : Limit) : Bool := decide ((l.lastReqs.length : Int) = l.limit)

/-- Three calls of a key not seen before, with clock readings that go back in
time. -/
def threeCallsNew : List Call :=
  [⟨"new", 5 * Minute, 5 * Minute⟩, ⟨"other", 5 * Minute, 5 * Minute⟩,
   ⟨"new", 2 * Minute, 2 * Minute⟩, ⟨"new", 3 * Minute, 3 * Minute⟩]

/-- Lines 82-86 of `Try`: what a call does after `Allow` returned true. -/
def Throttler.finish (t : Throttler) (userID : String) (now2 : Time) :
    Option (Throttler × error) :=
  match t.m userID with
  | none => none
  | some l =>
    match AddReq l now2 with
    | none => none
    | some l2 => some (t.store userID l2, none)

/-- Lines 78-86 of `Try`: what a call does after `Allow` returned `allowed`. -/
def Throttler.afterAllow (t : Throttler) (userID : String) (allowed : Bool) (now2 : Time) :
    Option (Throttler × error) :=
  if !allowed then some (t, LimitedErr) else t.finish userID now2

/-- Two calls `Try(userID)` made by two goroutines `A` and `B`, in the
interleaving in which both run `Allow` (which takes no lock) before either
runs lines 82-84: `A` reads the clock at `nowA1` and `nowA2`, `B` at `nowB1` and
`nowB2`.  The result is the final throttler and what `A` and `B` return. -/
def concurrentTry2 (t : Throttler) (userID : String) (nowA1 nowB1 nowA2 nowB2 : Time) :
    Option (Throttler × error × error) :=
  match t.Allow userID nowA1 with
  | none => none
  | some (t1, allowedA) =>
    match t1.Allow userID nowB1 with
    | none => none
    | some (t2, allowedB) =>
      match t2.afterAllow userID allowedA nowA2 with
      | none => none
      | some (t3, eA) =>
        match t3.afterAllow userID allowedB nowB2 with
        | none => none
        | some (t4, eB) => some (t4, eA, eB)

/-- A throttler of limit 2 in which key `"u1"` has one request in the window:
one slot is free. -/
def oneSlotLeft : Throttler := (NewThrottler 2).store "u1" ⟨2, [0, 2 * Minute]⟩

/-- Any `n + 1` consecutive timestamps of `S` span at least `W`: each entry
and the entry `n` places later are at least `W` apart. -/
def Spaced (n : Nat) (W : Int) (S : List Time) : Prop :=
  ∀ i x y, S[i]? = some x → S[i + n]? = some y → x + W ≤ y

/-- The number of timestamps of `S` in the half-open window `(a, a + Minute]`. -/
def inSpan (S : List Time) (a : Time) : Nat :=
  S.countP (fun s => decide (a < s ∧ s ≤ a + Minute))

/-- How many workers have received the request of a call in a given phase. -/
def handedTo : Option Phase → Nat
  | some Phase.received => 1
  | some Phase.counted => 1
  | some (Phase.executed _) => 1
  | some (Phase.delivered _) => 1
  | some (Phase.returned _ _) => 1
  | _ => 0

/-- How many outcomes the result channel of a call in a given phase has
received. -/
def outcomesOn : Option Phase → Nat
  | some (Phase.delivered _) => 1
  | some (Phase.returned _ _) => 1
  | _ => 0

/-- How many times the result channel of a call in a given phase has been
closed. -/
def closedTimes : Option Phase → Nat
  | some (Phase.returned _ _) => 1
  | _ => 0

/-- Invariant linking a schedule to the state it leads to: no value was ever
taken from the buffer of `q`, and for every call the numbers of hand-overs to a
worker, of outcomes sent on its result channel and of closings of that channel
in the schedule are those of its phase. -/
def ChanInv (tr : List Event) (d : RateLimitedRequester) : Prop :=
  tr.count Event.dequeue = 0 ∧
    ∀ i, tr.count (Event.handoff i) = handedTo (d.phaseOf i) ∧
      tr.count (Event.workerDeliver i) = outcomesOn (d.phaseOf i) ∧
      tr.count (Event.sendReturn i) = closedTimes (d.phaseOf i)

/-- Two requests are served, the loop of `Start` pauses and wakes up. -/
def pauseOnce : List Event :=
  [Event.startCall,
   Event.loopSpawn, Event.sendCall 1, Event.handoff 0, Event.workerInc 0,
   Event.workerDo 0 (some 10) none, Event.loopCheck,
   Event.loopSpawn, Event.sendCall 2, Event.handoff 1, Event.workerInc 1,
   Event.workerDo 1 (some 20) none, Event.loopCheck,
   Event.loopWake]

/-- While the loop of `Start` sleeps, a third and a fourth request are served
by workers started earlier; then the loop wakes up and runs two more rounds. -/
def overrun : List Event :=
  [Event.startCall,
   Event.loopSpawn, Event.loopCheck, Event.loopSpawn, Event.loopCheck,
   Event.loopSpawn, Event.loopCheck, Event.loopSpawn,
   Event.sendCall 1, Event.handoff 0, Event.workerInc 0, Event.workerDo 0 (some 10) none,
   Event.sendCall 2, Event.handoff 1, Event.workerInc 1, Event.workerDo 1 (some 20) none,
   Event.loopCheck,
   Event.sendCall 3, Event.handoff 2, Event.workerInc 2, Event.workerDo 2 (some 30) none,
   Event.sendCall 4, Event.handoff 3, Event.workerInc 3, Event.workerDo 3 (some 40) none,
   Event.loopWake, Event.loopSpawn, Event.loopCheck, Event.loopSpawn, Event.loopCheck]

/-- The sliding-window property worded for a window `W`: from
`NewThrottler L`, `1 ≤ L`, under a non-decreasing clock, after exactly `L`
admitted calls of a key, the first recorded at `t1`, a further `Try` is
rejected when its clock reading is before `t1 + W` and admitted when it is at or
after `t1 + W`. -/
def SlidingWindowClaim (W : Int) : Prop :=
  ∀ (L : Int) (k : String) (cs : List Call) (t : Throttler) (es : List error)
    (t1 : Time) (rest : List Time) (now1 now2 : Time),
    1 ≤ L → NonDecreasing (clockOf cs) → run (NewThrottler L) cs = some (t, es) →
    admittedStamps k cs es = t1 :: rest → ((t1 :: rest).length : Int) = L →
    (now1 < t1 + W → ∃ t2, t.Try k now1 now2 = some (t2, LimitedErr)) ∧
    (t1 + W ≤ now1 → ∃ t2, t.Try k now1 now2 = some (t2, none))

/-- The throttler of limit 1 after one admitted call of key `"u1"` recorded at
`Minute`. -/
def afterOneCallU1 : Throttler :=
  ((NewThrottler 1).store "u1" ⟨1, [0]⟩).store "u1" ⟨1, [Minute]⟩

/-! ## Theorems about `server/main.go` -/

/-! ### The shift loop of `AddReq` -/

theorem shiftStep_eq (xs : List Time) (i : Nat) (h1 : 1 ≤ i) (h2 : i < xs.length) :
    shiftStep xs (i : Int) = some (xs.set (i - 1) (xs.getD i zeroTime)) := by
  unfold shiftStep readAt writeAt
  have a1 : (0 : Int) ≤ (i : Int) ∧ (i : Int) < (xs.length : Int) := ⟨by omega, by omega⟩
  have a2 : (0 : Int) ≤ (i : Int) - 1 ∧ (i : Int) - 1 < (xs.length : Int) :=
    ⟨by omega, by omega⟩
  have a3 : ((i : Int) - 1).toNat = i - 1 := by omega
  simp only [a1, and_self, if_true, Int.toNat_ofNat, List.getElem?_eq_getElem h2, a2, a3]
  simp [List.getD_eq_getElem?_getD, List.getElem?_eq_getElem h2]

theorem shiftLoop_prefix (xs : List Time) :
    ∀ k, k + 1 ≤ xs.length →
      (List.range' 1 k).foldlM (fun ys (i : Nat) => shiftStep ys (i : Int)) xs
        = some ((xs.drop 1).take k ++ xs.drop k) := by
  intro k
  induction k with
  | zero => intro _; simp
  | succ k ih =>
    intro hk
    rw [List.range'_concat, List.foldlM_append, ih (by omega)]
    simp only [one_mul, List.foldlM_cons, List.foldlM_nil, Option.bind_eq_bind,
      Option.some_bind]
    rw [shiftStep_eq (List.take k (List.drop 1 xs) ++ List.drop k xs) (1 + k) (by omega)
      (by simp; omega)]
    simp only [Option.some_bind, Option.pure_def, Option.some.injEq]
    apply List.ext_getElem?
    intro j
    simp only [List.getElem?_set, List.getElem?_append, List.getElem?_take, List.getElem?_drop,
      List.length_take, List.length_drop, List.getD_eq_getElem?_getD, List.length_append]
    have h1 : min k (xs.length - 1) = k := by omega
    have h2 : min (k+1) (xs.length - 1) = k + 1 := by omega
    have e1 : 1 + k - 1 = k := by omega
    have e2 : ¬ (1 + k < k) := by omega
    have e3 : k + (1 + k - k) = k + 1 := by omega
    have e4 : k < k + (xs.length - k) := by omega
    simp only [h1, h2, e1, e2, e3, e4, one_mul, if_true, if_false, ite_self]
    by_cases hj : k = j
    · subst hj
      simp [List.getElem?_eq_getElem (show k + 1 < xs.length by omega), Nat.add_comm]
    · simp only [hj, if_false]
      by_cases hjk : j < k
      · have : j < k + 1 := by omega
        simp [hjk, this]
      · have : ¬ j < k + 1 := by omega
        simp only [hjk, this, if_false]
        congr 1; omega

/-- The loop never indexes out of range; it moves every slot but the first one
place to the left and leaves the last slot as it was. -/
theorem shiftLoop_eq (xs : List Time) :
    shiftLoop xs = some (xs.drop 1 ++ xs.drop (xs.length - 1)) := by
  cases xs with
  | nil => rfl
  | cons x xs =>
    have h := shiftLoop_prefix (x :: xs) ((x :: xs).length - 1) (by simp)
    rw [shiftLoop, h]
    simp

theorem shiftLoop_length (xs : List Time) :
    (xs.drop 1 ++ xs.drop (xs.length - 1)).length = xs.length := by
  cases xs with
  | nil => rfl
  | cons x xs => simp

theorem set_last_shifted (xs : List Time) (t : Time) (h : xs ≠ []) :
    (xs.drop 1 ++ xs.drop (xs.length - 1)).set (xs.length - 1) t = xs.drop 1 ++ [t] := by
  cases xs with
  | nil => exact absurd rfl h
  | cons x xs =>
    have hlen : (List.drop xs.length (x :: xs)).length = 1 := by simp
    obtain ⟨y, hy⟩ := List.length_eq_one.mp hlen
    simp only [List.length_cons, Nat.add_sub_cancel, List.drop_succ_cons, List.drop_zero]
    rw [List.set_append]
    simp [hy]

/-- The full branch of `AddReq` panics on an empty record. -/
theorem AddReq_nil_full (l : Limit) (t : Time) (h : l.lastReqs = [])
    (hfull : (l.lastReqs.length : Int) = l.limit) : AddReq l t = none := by
  unfold AddReq
  rw [if_pos hfull, h]
  rfl

/-- What `AddReq` computes: a full record loses its first entry, and the new
timestamp becomes the last entry. -/
theorem AddReq_eq (l : Limit) (t : Time) (h : l.lastReqs ≠ []) :
    AddReq l t = some { l with lastReqs :=
      (if (l.lastReqs.length : Int) = l.limit then l.lastReqs.drop 1 else l.lastReqs) ++ [t] } := by
  unfold AddReq
  by_cases hfull : (l.lastReqs.length : Int) = l.limit
  · have hpos : 1 ≤ l.lastReqs.length := by
      cases hq : l.lastReqs with
      | nil => exact absurd hq h
      | cons a as => simp
    rw [if_pos hfull]
    simp only [shiftLoop_eq, shiftLoop_length]
    have hw : writeAt (l.lastReqs.drop 1 ++ l.lastReqs.drop (l.lastReqs.length - 1))
        ((l.lastReqs.length : Int) - 1) t = some (l.lastReqs.drop 1 ++ [t]) := by
      unfold writeAt
      have a1 : (0 : Int) ≤ (l.lastReqs.length : Int) - 1 ∧ (l.lastReqs.length : Int) - 1
          < ((l.lastReqs.drop 1 ++ l.lastReqs.drop (l.lastReqs.length - 1)).length : Int) := by
        rw [shiftLoop_length]; omega
      have a2 : ((l.lastReqs.length : Int) - 1).toNat = l.lastReqs.length - 1 := by omega
      rw [if_pos a1, a2, set_last_shifted _ _ h]
    rw [hw]
    simp only [hfull, if_true]
  · simp only [hfull, if_false]

/-! ### The counting loop of `Allow` -/

theorem After_window (x now : Time) :
    After x (Add now (-1 * Minute)) = decide (now - Minute < x) := by
  simp only [After, Add, neg_one_mul, sub_eq_add_neg]

theorem countLoop_foldl (xs : List Time) (now : Time) (c : Int) :
    xs.foldl
      (fun count tt => if After tt (Add now (-1 * Minute)) then count + 1 else count) c
      = c + (inWindow xs now : Int) := by
  induction xs generalizing c with
  | nil => simp [inWindow]
  | cons x xs ih =>
    rw [List.foldl_cons, ih, After_window]
    by_cases hx : now - Minute < x
    · simp only [hx, decide_True, if_true, inWindow, List.countP_cons]
      push_cast; ring
    · simp [inWindow, List.countP_cons, hx]

/-- The loop of `Allow` counts the timestamps strictly after `now - window`. -/
theorem countLoop_eq (xs : List Time) (now : Time) :
    countLoop xs now = (inWindow xs now : Int) := by
  unfold countLoop
  rw [countLoop_foldl]; simp

theorem inWindow_le_length (xs : List Time) (now : Time) : inWindow xs now ≤ xs.length :=
  List.countP_le_length _

/-- Whenever `AddReq` returns, the record it returns is the old one without
its first entry if it was full, followed by the new timestamp. -/
theorem AddReq_some (l l2 : Limit) (t : Time) (h : AddReq l t = some l2) :
    l2 = { l with lastReqs :=
      (if (l.lastReqs.length : Int) = l.limit then l.lastReqs.drop 1 else l.lastReqs) ++ [t] } := by
  by_cases hne : l.lastReqs = []
  · by_cases hfull : (l.lastReqs.length : Int) = l.limit
    · rw [AddReq_nil_full l t hne hfull] at h
      cases h
    · unfold AddReq at h
      simp only [hfull, if_false, Option.some.injEq] at h
      simp only [hfull, if_false]
      exact h.symm
  · rw [AddReq_eq l t hne] at h
    exact (Option.some.inj h).symm

/-! ### `load`, `Allow`, `Try` -/

@[simp] theorem store_m_same (t : Throttler) (k : String) (l : Limit) :
    (t.store k l).m k = some l := by
  simp [Throttler.store]

theorem store_m_other (t : Throttler) (k k2 : String) (l : Limit) (h : k2 ≠ k) :
    (t.store k l).m k2 = t.m k2 := by
  simp [Throttler.store, h]

@[simp] theorem store_limit (t : Throttler) (k : String) (l : Limit) :
    (t.store k l).limit = t.limit := rfl

theorem NewLimit_eq (L : Int) (h : 0 ≤ L) :
    NewLimit L = some { limit := L, lastReqs := List.replicate L.toNat zeroTime } := by
  unfold NewLimit
  have : ¬ L < 0 := by omega
  simp [this]

theorem load_of_some (t : Throttler) (k : String) (l : Limit) (h : t.m k = some l) :
    t.load k = some (t, l) := by
  simp [Throttler.load, h]

theorem load_of_none (t : Throttler) (k : String) (h : t.m k = none) :
    t.load k = (NewLimit t.limit).map (fun l => (t.store k l, l)) := by
  unfold Throttler.load
  rw [h]
  cases NewLimit t.limit <;> rfl

/-- After `load` the key has the record that `load` returns; the limit and
the records of the other keys are untouched. -/
theorem load_frame (t t1 : Throttler) (k : String) (l : Limit)
    (h : t.load k = some (t1, l)) :
    t1.m k = some l ∧ t1.limit = t.limit ∧ ∀ k2, k2 ≠ k → t1.m k2 = t.m k2 := by
  cases hm : t.m k with
  | some l0 =>
    rw [load_of_some t k l0 hm] at h
    simp only [Option.some.injEq, Prod.mk.injEq] at h
    obtain ⟨rfl, rfl⟩ := h
    exact ⟨hm, rfl, fun _ _ => rfl⟩
  | none =>
    rw [load_of_none t k hm] at h
    cases hn : NewLimit t.limit with
    | none => simp [hn] at h
    | some l0 =>
      simp only [hn, Option.map_some', Option.some.injEq, Prod.mk.injEq] at h
      obtain ⟨rfl, rfl⟩ := h
      exact ⟨store_m_same _ _ _, rfl, fun k2 hk2 => store_m_other _ _ _ _ hk2⟩

/-- The record `load` returns is the one the map held, or else a new record of
`NewLimit`. -/
theorem load_record (t t1 : Throttler) (k : String) (l : Limit)
    (h : t.load k = some (t1, l)) :
    (t.m k = some l ∧ t1 = t) ∨ (t.m k = none ∧ NewLimit t.limit = some l) := by
  cases hm : t.m k with
  | some l0 =>
    rw [load_of_some t k l0 hm] at h
    simp only [Option.some.injEq, Prod.mk.injEq] at h
    obtain ⟨rfl, rfl⟩ := h
    exact Or.inl ⟨rfl, rfl⟩
  | none =>
    rw [load_of_none t k hm] at h
    cases hn : NewLimit t.limit with
    | none => simp [hn] at h
    | some l0 =>
      simp only [hn, Option.map_some', Option.some.injEq, Prod.mk.injEq] at h
      exact Or.inr ⟨rfl, by rw [h.2]⟩

/-- `Allow` in terms of the count of the loaded record. -/
theorem Allow_eq (t t1 : Throttler) (k : String) (l : Limit) (now : Time)
    (h : t.load k = some (t1, l)) :
    t.Allow k now = some (t1, decide ((inWindow l.lastReqs now : Int) < t.limit)) := by
  unfold Throttler.Allow
  rw [h]
  simp only [countLoop_eq, (load_frame t t1 k l h).2.1]
  by_cases hc : (inWindow l.lastReqs now : Int) < t.limit <;> simp [hc]

/-- Every way `Try` can return: a rejection leaves the loaded state, an
admission stores the record `AddReq` made. -/
theorem Try_inv (t t2 : Throttler) (k : String) (now1 now2 : Time) (e : error)
    (h : t.Try k now1 now2 = some (t2, e)) :
    ∃ t1 l, t.load k = some (t1, l) ∧
      ((¬ (inWindow l.lastReqs now1 : Int) < t.limit ∧ e = LimitedErr ∧ t2 = t1) ∨
       ((inWindow l.lastReqs now1 : Int) < t.limit ∧ e = none ∧
          ∃ l2, AddReq l now2 = some l2 ∧ t2 = t1.store k l2)) := by
  cases hl : t.load k with
  | none => simp [Throttler.Try, Throttler.Allow, hl] at h
  | some p =>
    obtain ⟨t1, l⟩ := p
    refine ⟨t1, l, rfl, ?_⟩
    unfold Throttler.Try at h
    rw [Allow_eq t t1 k l now1 hl] at h
    by_cases hc : (inWindow l.lastReqs now1 : Int) < t.limit
    · right
      simp only [hc, decide_True, Bool.not_true, Bool.false_eq_true, if_false,
        (load_frame t t1 k l hl).1] at h
      cases ha : AddReq l now2 with
      | none => simp [ha] at h
      | some l2 =>
        simp only [ha, Option.some.injEq, Prod.mk.injEq] at h
        exact ⟨hc, h.2.symm, l2, rfl, h.1.symm⟩
    · left
      simp only [hc, decide_False, Bool.not_false, if_true, Option.some.injEq,
        Prod.mk.injEq] at h
      exact ⟨hc, h.2.symm, h.1.symm⟩

/-- `Try` on a loaded record that is not empty. -/
theorem Try_eq (t t1 : Throttler) (k : String) (l : Limit) (now1 now2 : Time)
    (hl : t.load k = some (t1, l)) (hne : l.lastReqs ≠ []) :
    t.Try k now1 now2 =
      if (inWindow l.lastReqs now1 : Int) < t.limit then
        some (t1.store k { l with lastReqs :=
          (if (l.lastReqs.length : Int) = l.limit then l.lastReqs.drop 1 else l.lastReqs)
            ++ [now2] }, none)
      else some (t1, LimitedErr) := by
  unfold Throttler.Try
  rw [Allow_eq t t1 k l now1 hl]
  by_cases hc : (inWindow l.lastReqs now1 : Int) < t.limit
  · simp only [hc, decide_True, Bool.not_true, Bool.false_eq_true, if_false, if_true,
      (load_frame t t1 k l hl).1, AddReq_eq l now2 hne]
  · simp only [hc, decide_False, Bool.not_false, if_true, if_false]

/-! ### Well-formed states: `Try` never panics -/

theorem WF_NewThrottler (L : Int) (h : 0 ≤ L) : WF (NewThrottler L) :=
  ⟨h, fun k l hk => by simp [NewThrottler] at hk⟩

theorem WF_store (t : Throttler) (k : String) (l : Limit) (h : WF t)
    (h1 : l.limit = t.limit) (h2 : (l.lastReqs.length : Int) = t.limit) :
    WF (t.store k l) := by
  refine ⟨h.1, fun k2 l2 hk2 => ?_⟩
  by_cases hk : k2 = k
  · subst hk
    rw [store_m_same] at hk2
    cases hk2
    exact ⟨h1, h2⟩
  · rw [store_m_other _ _ _ _ hk] at hk2
    exact h.2 k2 l2 hk2

/-- In a well-formed state `load` returns, and what it returns is a record of
exactly `limit` slots whose timestamps are `recordOf`. -/
theorem load_WF (t : Throttler) (k : String) (h : WF t) :
    ∃ t1 l, t.load k = some (t1, l) ∧ WF t1 ∧ l.limit = t.limit ∧
      (l.lastReqs.length : Int) = t.limit ∧ l.lastReqs = recordOf t k := by
  cases hm : t.m k with
  | some l =>
    refine ⟨t, l, load_of_some t k l hm, h, (h.2 k l hm).1, (h.2 k l hm).2, ?_⟩
    simp [recordOf, hm]
  | none =>
    refine ⟨t.store k ⟨t.limit, List.replicate t.limit.toNat zeroTime⟩,
      ⟨t.limit, List.replicate t.limit.toNat zeroTime⟩, ?_, ?_, rfl, ?_, ?_⟩
    · rw [load_of_none t k hm, NewLimit_eq _ h.1]; rfl
    · exact WF_store t k _ h rfl (by simp [Int.toNat_of_nonneg h.1])
    · simp [Int.toNat_of_nonneg h.1]
    · simp [recordOf, hm]

theorem recordOf_length (t : Throttler) (k : String) (h : WF t) :
    ((recordOf t k).length : Int) = t.limit := by
  obtain ⟨_, l, _, _, _, h4, h5⟩ := load_WF t k h
  rw [← h5]; exact h4

theorem recordOf_store_same (t : Throttler) (k : String) (l : Limit) :
    recordOf (t.store k l) k = l.lastReqs := by
  simp [recordOf]

theorem recordOf_store_other (t : Throttler) (k k2 : String) (l : Limit) (h : k2 ≠ k) :
    recordOf (t.store k l) k2 = recordOf t k2 := by
  simp [recordOf, store_m_other _ _ _ _ h]

/-- `load` does not change the timestamps any key is counted with. -/
theorem load_recordOf (t t1 : Throttler) (k k2 : String) (l : Limit)
    (h : t.load k = some (t1, l)) (hwf : WF t) : recordOf t1 k2 = recordOf t k2 := by
  rcases load_record t t1 k l h with ⟨_, rfl⟩ | ⟨hm, hn⟩
  · rfl
  · rw [load_of_none t k hm, hn] at h
    simp only [Option.map_some', Option.some.injEq, Prod.mk.injEq] at h
    rw [← h.1]
    by_cases hk : k2 = k
    · subst hk
      rw [recordOf_store_same]
      rw [NewLimit_eq _ hwf.1] at hn
      cases hn
      simp [recordOf, hm]
    · exact recordOf_store_other _ _ _ _ hk

/-- `Try` in a well-formed state: it returns, admits exactly when the count
is below the limit, and an admission drops the oldest slot and appends the
second clock reading. -/
theorem Try_WF (t : Throttler) (k : String) (now1 now2 : Time) (h : WF t) :
    ∃ t2 e, t.Try k now1 now2 = some (t2, e) ∧ WF t2 ∧ t2.limit = t.limit ∧
      (e = none ↔ (inWindow (recordOf t k) now1 : Int) < t.limit) ∧
      (e ≠ none → e = LimitedErr) ∧
      (∀ k2, recordOf t2 k2 =
        if k2 = k ∧ e = none then (recordOf t k).drop 1 ++ [now2] else recordOf t k2) := by
  obtain ⟨t1, l, hl, hwf1, hlim, hlen, hrec⟩ := load_WF t k h
  have hfr := load_frame t t1 k l hl
  by_cases hc : (inWindow l.lastReqs now1 : Int) < t.limit
  · have hne : l.lastReqs ≠ [] := by
      intro h0
      rw [h0] at hlen hc
      simp only [List.length_nil, Nat.cast_zero] at hlen
      have := inWindow_le_length ([] : List Time) now1
      simp only [List.length_nil, Nat.le_zero] at this
      rw [this] at hc
      simp only [Nat.cast_zero] at hc
      omega
    have hfull : (l.lastReqs.length : Int) = l.limit := by rw [hlen, hlim]
    refine ⟨t1.store k { l with lastReqs := l.lastReqs.drop 1 ++ [now2] }, none, ?_, ?_, ?_, ?_,
      ?_, ?_⟩
    · rw [Try_eq t t1 k l now1 now2 hl hne]
      simp only [hc, if_true, hfull]
    · apply WF_store _ _ _ hwf1
      · simp [hlim, hfr.2.1]
      · have h1 : 1 ≤ l.lastReqs.length := by
          cases hq : l.lastReqs with
          | nil => exact absurd hq hne
          | cons a as => simp
        simp only [List.length_append, List.length_drop, List.length_cons, List.length_nil,
          hfr.2.1]
        rw [← hlen]
        omega
    · simp [hfr.2.1]
    · rw [← hrec]; simp [hc]
    · intro h0; exact absurd rfl h0
    · intro k2
      by_cases hk : k2 = k
      · subst hk
        simp [recordOf_store_same, hrec]
      · simp only [hk, false_and, if_false]
        rw [recordOf_store_other _ _ _ _ hk]
        exact load_recordOf t t1 k k2 l hl h
  · refine ⟨t1, LimitedErr, ?_, hwf1, hfr.2.1, ?_, fun _ => rfl, ?_⟩
    · obtain ⟨t2, e, ht⟩ : ∃ t2 e, t.Try k now1 now2 = some (t2, e) := by
        unfold Throttler.Try
        rw [Allow_eq t t1 k l now1 hl]
        simp [hc]
      obtain ⟨t1', l', hl', hcase⟩ := Try_inv t t2 k now1 now2 e ht
      rw [hl] at hl'
      simp only [Option.some.injEq, Prod.mk.injEq] at hl'
      obtain ⟨rfl, rfl⟩ := hl'
      rcases hcase with ⟨_, he, ht2⟩ | ⟨hc', _⟩
      · rw [ht, he, ht2]
      · exact absurd hc' hc
    · rw [← hrec]
      simp [hc, LimitedErr]
    · intro k2
      have : ¬ (k2 = k ∧ LimitedErr = none) := by simp [LimitedErr]
      simp only [this, if_false]
      exact load_recordOf t t1 k k2 l hl h

/-! ### Runs -/

theorem run_cons_eq (t t1 : Throttler) (c : Call) (cs : List Call) (e : error)
    (h : t.Try c.userID c.now1 c.now2 = some (t1, e)) :
    run t (c :: cs) = (run t1 cs).map (fun p => (p.1, e :: p.2)) := by
  simp only [run, h]
  cases run t1 cs <;> rfl

/-- Every way a run can return: its first call returned and so did the rest. -/
theorem run_cons_inv (t t2 : Throttler) (c : Call) (cs : List Call) (es : List error)
    (h : run t (c :: cs) = some (t2, es)) :
    ∃ t1 e es1, t.Try c.userID c.now1 c.now2 = some (t1, e) ∧
      run t1 cs = some (t2, es1) ∧ es = e :: es1 := by
  cases ht : t.Try c.userID c.now1 c.now2 with
  | none => simp [run, ht] at h
  | some p =>
    obtain ⟨t1, e⟩ := p
    rw [run_cons_eq t t1 c cs e ht] at h
    cases hr : run t1 cs with
    | none => simp [hr] at h
    | some q =>
      obtain ⟨t3, es1⟩ := q
      simp only [hr, Option.map_some', Option.some.injEq, Prod.mk.injEq] at h
      exact ⟨t1, e, es1, rfl, by rw [hr, h.1], h.2.symm⟩

/-- A run from a well-formed state never panics and ends well-formed. -/
theorem run_WF (cs : List Call) :
    ∀ t : Throttler, WF t →
      ∃ t2 es, run t cs = some (t2, es) ∧ WF t2 ∧ t2.limit = t.limit ∧
        es.length = cs.length := by
  induction cs with
  | nil => intro t h; exact ⟨t, [], rfl, h, rfl, rfl⟩
  | cons c cs ih =>
    intro t h
    obtain ⟨t1, e, ht, hwf1, hlim1, _⟩ := Try_WF t c.userID c.now1 c.now2 h
    obtain ⟨t2, es, hr, hwf2, hlim2, hlen⟩ := ih t1 hwf1
    refine ⟨t2, e :: es, ?_, hwf2, by rw [hlim2, hlim1], by simp [hlen]⟩
    rw [run_cons_eq t t1 c cs e ht, hr]
    rfl

/-- Every state reachable from `NewThrottler L` is well-formed with limit `L`. -/
theorem Reachable_WF (L : Int) (t : Throttler) (hL : 0 ≤ L) (h : Reachable L t) :
    WF t ∧ t.limit = L := by
  obtain ⟨cs, es, hr⟩ := h
  obtain ⟨t2, es2, hr2, hwf, hlim, _⟩ := run_WF cs (NewThrottler L) (WF_NewThrottler L hL)
  rw [hr] at hr2
  simp only [Option.some.injEq, Prod.mk.injEq] at hr2
  rw [hr2.1]
  exact ⟨hwf, hlim⟩

theorem lastN_all (n : Nat) (xs : List Time) (h : xs.length ≤ n) : lastN n xs = xs := by
  unfold lastN
  have : xs.length - n = 0 := by omega
  rw [this]; rfl

theorem lastN_shift (n : Nat) (r rest : List Time) (a : Time) (h : r.length = n)
    (hn : 1 ≤ n) :
    lastN n ((r.drop 1 ++ [a]) ++ rest) = lastN n (r ++ a :: rest) := by
  cases r with
  | nil => simp at h; omega
  | cons x r =>
    unfold lastN
    simp only [List.length_cons] at h
    have e1 : ((List.drop 1 (x :: r) ++ [a]) ++ rest).length - n = rest.length := by
      simp; omega
    have e2 : ((x :: r) ++ a :: rest).length - n = rest.length + 1 := by
      simp; omega
    rw [e1, e2]
    simp

/-- After a run, the slots of a key are the last `limit` of its previous slots
followed by the timestamps of its admitted calls. -/
theorem run_recordOf (k : String) (cs : List Call) :
    ∀ (t t2 : Throttler) (es : List error), WF t → run t cs = some (t2, es) →
      recordOf t2 k = lastN t.limit.toNat (recordOf t k ++ admittedStamps k cs es) := by
  induction cs with
  | nil =>
    intro t t2 es h hr
    simp only [run, Option.some.injEq, Prod.mk.injEq] at hr
    obtain ⟨rfl, rfl⟩ := hr
    have hlen := recordOf_length t k h
    simp only [admittedStamps, List.append_nil]
    rw [lastN_all]
    omega
  | cons c cs ih =>
    intro t t2 es h hr
    obtain ⟨t1, e, es1, ht, hr1, rfl⟩ := run_cons_inv t t2 c cs es hr
    obtain ⟨t1', e', ht', hwf1, hlim1, hadm, _, hrec⟩ := Try_WF t c.userID c.now1 c.now2 h
    rw [ht] at ht'
    simp only [Option.some.injEq, Prod.mk.injEq] at ht'
    obtain ⟨rfl, rfl⟩ := ht'
    rw [ih t1 t2 es1 hwf1 hr1, hlim1, hrec k]
    have hlen := recordOf_length t k h
    by_cases hk : c.userID = k ∧ e = none
    · obtain ⟨rfl, rfl⟩ := hk
      simp only [admittedStamps, and_self, if_true]
      have hpos : 1 ≤ t.limit := by
        have h1 := hadm.mp rfl
        have h2 : (0 : Int) ≤ (inWindow (recordOf t c.userID) c.now1 : Int) := by positivity
        omega
      apply lastN_shift
      · omega
      · omega
    · have hk' : ¬ (k = c.userID ∧ e = none) := fun hh => hk ⟨hh.1.symm, hh.2⟩
      simp only [admittedStamps, hk, hk', if_false]

/-! ### Frame properties -/

/-- A call for key `k` changes neither the limit nor the record of any other key. -/
theorem Try_frame (t t2 : Throttler) (k : String) (now1 now2 : Time) (e : error)
    (h : t.Try k now1 now2 = some (t2, e)) :
    t2.limit = t.limit ∧ ∀ k2, k2 ≠ k → t2.m k2 = t.m k2 := by
  obtain ⟨t1, l, hl, hcase⟩ := Try_inv t t2 k now1 now2 e h
  have hfr := load_frame t t1 k l hl
  rcases hcase with ⟨_, _, rfl⟩ | ⟨_, _, l2, _, rfl⟩
  · exact ⟨hfr.2.1, hfr.2.2⟩
  · refine ⟨hfr.2.1, fun k2 hk2 => ?_⟩
    rw [store_m_other _ _ _ _ hk2]
    exact hfr.2.2 k2 hk2

theorem load_agree (t u t1 : Throttler) (k : String) (l : Limit)
    (hlim : t.limit = u.limit) (hk : t.m k = u.m k) (h : t.load k = some (t1, l)) :
    ∃ u1, u.load k = some (u1, l) := by
  rcases load_record t t1 k l h with ⟨hm, _⟩ | ⟨hm, hn⟩
  · exact ⟨u, load_of_some u k l (by rw [← hk, hm])⟩
  · refine ⟨u.store k l, ?_⟩
    rw [load_of_none u k (by rw [← hk, hm]), ← hlim, hn]
    rfl

/-- The outcome of a call for key `k`, and the record it leaves for `k`, depend
only on the limit and on the record of `k`. -/
theorem Try_agree (t u t2 : Throttler) (k : String) (now1 now2 : Time) (e : error)
    (hlim : t.limit = u.limit) (hk : t.m k = u.m k)
    (h : t.Try k now1 now2 = some (t2, e)) :
    ∃ u2, u.Try k now1 now2 = some (u2, e) ∧ u2.m k = t2.m k := by
  obtain ⟨t1, l, hl, hcase⟩ := Try_inv t t2 k now1 now2 e h
  obtain ⟨u1, hu⟩ := load_agree t u t1 k l hlim hk hl
  have hfu := load_frame u u1 k l hu
  have hft := load_frame t t1 k l hl
  rcases hcase with ⟨hc, rfl, rfl⟩ | ⟨hc, rfl, l2, ha, rfl⟩
  · refine ⟨u1, ?_, by rw [hfu.1, hft.1]⟩
    unfold Throttler.Try
    rw [Allow_eq u u1 k l now1 hu, ← hlim]
    simp [hc]
  · refine ⟨u1.store k l2, ?_, by simp⟩
    unfold Throttler.Try
    rw [Allow_eq u u1 k l now1 hu, ← hlim]
    simp [hc, hfu.1, ha]

/-- Removing the calls of key `a` from a run changes neither the outcomes of
the other calls nor the records of the other keys. -/
theorem run_filter (a : String) (cs : List Call) :
    ∀ (t u t2 : Throttler) (es : List error),
      t.limit = u.limit → (∀ b, b ≠ a → t.m b = u.m b) → run t cs = some (t2, es) →
      ∃ u2, run u (cs.filter (fun c => decide (c.userID ≠ a)))
          = some (u2, outcomesExcept a cs es) ∧
        u2.limit = t2.limit ∧ ∀ b, b ≠ a → t2.m b = u2.m b := by
  induction cs with
  | nil =>
    intro t u t2 es hlim hm hr
    simp only [run, Option.some.injEq, Prod.mk.injEq] at hr
    obtain ⟨rfl, rfl⟩ := hr
    exact ⟨u, rfl, hlim.symm, hm⟩
  | cons c cs ih =>
    intro t u t2 es hlim hm hr
    obtain ⟨t1, e, es1, ht, hr1, rfl⟩ := run_cons_inv t t2 c cs es hr
    have hfr := Try_frame t t1 c.userID c.now1 c.now2 e ht
    by_cases hc : c.userID = a
    · have hm1 : ∀ b, b ≠ a → t1.m b = u.m b := by
        intro b hb
        rw [hfr.2 b (by rw [hc]; exact hb)]
        exact hm b hb
      obtain ⟨u2, hu2, hrest⟩ := ih t1 u t2 es1 (by rw [hfr.1, hlim]) hm1 hr1
      refine ⟨u2, ?_, hrest⟩
      simp only [outcomesExcept, hc, if_true]
      rw [List.filter_cons_of_neg (by simp [hc])]
      exact hu2
    · obtain ⟨u1, hu1, hsame⟩ :=
        Try_agree t u t1 c.userID c.now1 c.now2 e hlim (hm _ hc) ht
      have hfu := Try_frame u u1 c.userID c.now1 c.now2 e hu1
      have hm1 : ∀ b, b ≠ a → t1.m b = u1.m b := by
        intro b hb
        by_cases hbc : b = c.userID
        · rw [hbc, hsame]
        · rw [hfr.2 b hbc, hfu.2 b hbc]
          exact hm b hb
      obtain ⟨u2, hu2, hrest⟩ := ih t1 u1 t2 es1 (by rw [hfr.1, hfu.1, hlim]) hm1 hr1
      refine ⟨u2, ?_, hrest⟩
      simp only [outcomesExcept, hc, if_false]
      rw [List.filter_cons_of_pos (by simp [hc]), run_cons_eq u u1 c _ e hu1, hu2]
      rfl

/-! ### Chronological order of the slots -/

theorem exists_not_counted (xs : List Time) (now : Time)
    (h : inWindow xs now < xs.length) : ∃ z ∈ xs, z ≤ now - Minute := by
  by_contra hcon
  push_neg at hcon
  have : inWindow xs now = xs.length := by
    unfold inWindow
    rw [List.countP_eq_length]
    intro a ha
    simpa using hcon a ha
  omega

theorem Minute_pos : 0 < Minute := by decide

/-- Under a non-decreasing clock a run keeps the slots of every key in
chronological order, and no slot is earlier than the zero time. -/
theorem run_sorted (cs : List Call) :
    ∀ t : Throttler, WF t → NonDecreasing (clockOf cs) →
      (∀ k, (recordOf t k).Pairwise (· ≤ ·) ∧
        ∀ x ∈ recordOf t k, 0 ≤ x ∧ ∀ y ∈ clockOf cs, x ≤ max y 0) →
      ∃ t2 es, run t cs = some (t2, es) ∧
        ∀ k, (recordOf t2 k).Pairwise (· ≤ ·) ∧ ∀ x ∈ recordOf t2 k, 0 ≤ x := by
  induction cs with
  | nil =>
    intro t _ _ hinv
    exact ⟨t, [], rfl, fun k => ⟨(hinv k).1, fun x hx => ((hinv k).2 x hx).1⟩⟩
  | cons c cs ih =>
    intro t hwf hclock hinv
    obtain ⟨t1, e, ht, hwf1, _, hadm, _, hrec⟩ := Try_WF t c.userID c.now1 c.now2 hwf
    simp only [clockOf, NonDecreasing, List.pairwise_cons, List.mem_cons, forall_eq_or_imp]
      at hclock
    obtain ⟨⟨h12, h1rest⟩, h2rest, hrestsorted⟩ := hclock
    have hinv1 : ∀ k, (recordOf t1 k).Pairwise (· ≤ ·) ∧
        ∀ x ∈ recordOf t1 k, 0 ≤ x ∧ ∀ y ∈ clockOf cs, x ≤ max y 0 := by
      intro k
      rw [hrec k]
      by_cases hk : k = c.userID ∧ e = none
      · obtain ⟨rfl, rfl⟩ := hk
        simp only [and_self, if_true]
        have hlt := hadm.mp rfl
        rw [← recordOf_length t c.userID hwf] at hlt
        obtain ⟨z, hz, hzle⟩ := exists_not_counted _ _ (by exact_mod_cast hlt)
        have hz0 := ((hinv c.userID).2 z hz).1
        have hn1 : 0 ≤ c.now1 := by have := Minute_pos; linarith
        have hold : ∀ x ∈ List.drop 1 (recordOf t c.userID), x ∈ recordOf t c.userID :=
          fun x hx => List.mem_of_mem_drop hx
        refine ⟨?_, ?_⟩
        · rw [List.pairwise_append]
          refine ⟨List.Pairwise.sublist (List.drop_sublist _ _) (hinv c.userID).1,
            List.pairwise_singleton _ _, ?_⟩
          intro x hx y hy
          simp only [List.mem_singleton] at hy
          subst hy
          have := ((hinv c.userID).2 x (hold x hx)).2 c.now1 (by simp [clockOf])
          have hm : max c.now1 0 = c.now1 := max_eq_left hn1
          rw [hm] at this
          linarith
        · intro x hx
          rw [List.mem_append] at hx
          rcases hx with hx | hx
          · have hb := (hinv c.userID).2 x (hold x hx)
            exact ⟨hb.1, fun y hy => hb.2 y (by simp [clockOf, hy])⟩
          · simp only [List.mem_singleton] at hx
            subst hx
            refine ⟨by linarith, fun y hy => ?_⟩
            have := h2rest y hy
            exact le_trans this (le_max_left _ _)
      · simp only [hk, if_false]
        refine ⟨(hinv k).1, fun x hx => ?_⟩
        have hb := (hinv k).2 x hx
        exact ⟨hb.1, fun y hy => hb.2 y (by simp [clockOf, hy])⟩
    obtain ⟨t2, es, hr, hfin⟩ := ih t1 hwf1 hrestsorted hinv1
    refine ⟨t2, e :: es, ?_, hfin⟩
    rw [run_cons_eq t t1 c cs e ht, hr]
    rfl

theorem recordOf_NewThrottler (L : Int) (k : String) :
    recordOf (NewThrottler L) k = List.replicate L.toNat zeroTime := rfl

theorem recordOf_of_some (t : Throttler) (k : String) (l : Limit) (h : t.m k = some l) :
    recordOf t k = l.lastReqs := by
  simp [recordOf, h]

/-- A run of a new throttler under a non-decreasing clock. -/
theorem run_NewThrottler_sorted (L : Int) (hL : 0 ≤ L) (cs : List Call)
    (hclock : NonDecreasing (clockOf cs)) :
    ∃ t es, run (NewThrottler L) cs = some (t, es) ∧
      ∀ k, (recordOf t k).Pairwise (· ≤ ·) ∧ ∀ x ∈ recordOf t k, 0 ≤ x := by
  apply run_sorted cs (NewThrottler L) (WF_NewThrottler L hL) hclock
  intro k
  rw [recordOf_NewThrottler]
  refine ⟨List.pairwise_replicate.mpr (Or.inr (le_refl _)), fun x hx => ?_⟩
  have := List.eq_of_mem_replicate hx
  subst this
  exact ⟨le_refl _, fun y _ => le_max_right _ _⟩

/-! ### Admission and rejection in a well-formed state -/

theorem Try_WF_admit (t : Throttler) (k : String) (now1 now2 : Time) (h : WF t)
    (hc : (inWindow (recordOf t k) now1 : Int) < t.limit) :
    ∃ t2, t.Try k now1 now2 = some (t2, none) ∧ WF t2 ∧ t2.limit = t.limit ∧
      recordOf t2 k = (recordOf t k).drop 1 ++ [now2] := by
  obtain ⟨t2, e, ht, hwf, hlim, hadm, _, hrec⟩ := Try_WF t k now1 now2 h
  have he : e = none := hadm.mpr hc
  subst he
  exact ⟨t2, ht, hwf, hlim, by simpa using hrec k⟩

theorem Try_WF_reject (t : Throttler) (k : String) (now1 now2 : Time) (h : WF t)
    (hc : ¬ (inWindow (recordOf t k) now1 : Int) < t.limit) :
    ∃ t2, t.Try k now1 now2 = some (t2, LimitedErr) ∧ WF t2 ∧ t2.limit = t.limit ∧
      recordOf t2 k = recordOf t k := by
  obtain ⟨t2, e, ht, hwf, hlim, hadm, hlimited, hrec⟩ := Try_WF t k now1 now2 h
  have hne : e ≠ none := fun he => hc (hadm.mp he)
  have he := hlimited hne
  subst he
  refine ⟨t2, ht, hwf, hlim, ?_⟩
  rw [hrec k]
  simp [LimitedErr]

theorem inWindow_cons (x : Time) (xs : List Time) (now : Time) :
    inWindow (x :: xs) now = inWindow xs now + (if now - Minute < x then 1 else 0) := by
  unfold inWindow
  rw [List.countP_cons]
  by_cases h : now - Minute < x <;> simp [h]

theorem inWindow_nil (now : Time) : inWindow [] now = 0 := rfl

theorem inWindow_all (xs : List Time) (now : Time) (h : ∀ x ∈ xs, now - Minute < x) :
    inWindow xs now = xs.length := by
  unfold inWindow
  rw [List.countP_eq_length]
  intro a ha
  simpa using h a ha

theorem lastN_append_right (n : Nat) (xs ys : List Time) (h : ys.length = n) :
    lastN n (xs ++ ys) = ys := by
  unfold lastN
  have : (xs ++ ys).length - n = xs.length := by simp; omega
  rw [this]
  simp

/-! ### The claims about the throttle -/

/-- C1: for a throttler built by `NewThrottler L` with `1 ≤ L`, in any state it
can reach, for every key and every clock reading, `Try` returns, and it
returns `nil` exactly when the number of timestamps of the key's record (the
record `Allow` loads, created on demand) that are strictly after
`now - Minute` is below `L`; in every other case it returns `LimitedErr`. -/
theorem Try_nil_iff_count_below_limit (L : Int) (hL : 1 ≤ L) (t : Throttler)
    (hreach : Reachable L t) (userID : String) (now1 now2 : Time) :
    ∃ t1 l t2 e, t.load userID = some (t1, l) ∧
      (∀ l0, t.m userID = some l0 → l = l0) ∧
      t.Try userID now1 now2 = some (t2, e) ∧
      (e = none ↔ (inWindow l.lastReqs now1 : Int) < L) ∧
      (e ≠ none → e = LimitedErr) := by
  obtain ⟨hwf, hlim⟩ := Reachable_WF L t (by omega) hreach
  obtain ⟨t1, l, hl, _, _, _, hrec⟩ := load_WF t userID hwf
  obtain ⟨t2, e, ht, _, _, hadm, hlimited, _⟩ := Try_WF t userID now1 now2 hwf
  refine ⟨t1, l, t2, e, hl, ?_, ht, ?_, hlimited⟩
  · intro l0 hl0
    rw [load_of_some t userID l0 hl0] at hl
    simp only [Option.some.injEq, Prod.mk.injEq] at hl
    exact hl.2.symm
  · rw [hrec, ← hlim]
    exact hadm

theorem Try_nil_iff_count_below_limit_witness :
    (1 : Int) ≤ 2 ∧ Reachable 2 (NewThrottler 2) ∧
    ∃ t1 l t2 e, (NewThrottler 2).load "u1" = some (t1, l) ∧
      (∀ l0, (NewThrottler 2).m "u1" = some l0 → l = l0) ∧
      (NewThrottler 2).Try "u1" (2 * Minute) (2 * Minute) = some (t2, e) ∧
      (e = none ↔ (inWindow l.lastReqs (2 * Minute) : Int) < 2) ∧
      (e ≠ none → e = LimitedErr) :=
  ⟨by decide, ⟨[], [], rfl⟩,
    Try_nil_iff_count_below_limit 2 (by decide) (NewThrottler 2) ⟨[], [], rfl⟩ "u1"
      (2 * Minute) (2 * Minute)⟩

/-- C2 as amended: sliding window, for the one window the code has, the
constant `time.Minute`.  Start from `NewThrottler L`, `1 ≤ L`, and run calls
under a non-decreasing clock; let exactly `L` calls of key `k` have been
admitted, `t1` being the timestamp recorded for the first of them (the clock
reading of its `AddReq`).  A further `Try` for `k` whose clock reading in `Allow`
is before `t1 + Minute` returns `LimitedErr`, and one whose reading is at or
after `t1 + Minute` returns `nil`.  Scenario: with limit 2 and
key `"u1"`, calls at 0 s, 10 s, 20 s and 61 s after a clock reading `T0` (at
least one window after the zero time) give `nil`, `nil`, `LimitedErr`, `nil`. -/
theorem sliding_window (L : Int) (hL : 1 ≤ L) (k : String) (cs : List Call)
    (t : Throttler) (es : List error) (t1 : Time) (rest : List Time)
    (hclock : NonDecreasing (clockOf cs))
    (hrun : run (NewThrottler L) cs = some (t, es))
    (hadm : admittedStamps k cs es = t1 :: rest)
    (hcount : ((t1 :: rest).length : Int) = L) (now1 now2 : Time) :
    (now1 < t1 + Minute → ∃ t2, t.Try k now1 now2 = some (t2, LimitedErr)) ∧
    (t1 + Minute ≤ now1 → ∃ t2, t.Try k now1 now2 = some (t2, none)) ∧
    (∀ T0 : Time, Minute ≤ T0 →
      (run (NewThrottler 2) (scenarioU1 T0)).map Prod.snd
        = some [none, none, LimitedErr, none]) := by
  have hL0 : (0 : Int) ≤ L := by omega
  obtain ⟨hwf, hlim⟩ := Reachable_WF L t hL0 ⟨cs, es, hrun⟩
  have hrec : recordOf t k = t1 :: rest := by
    rw [run_recordOf k cs (NewThrottler L) t es (WF_NewThrottler L hL0) hrun, hadm,
      recordOf_NewThrottler]
    apply lastN_append_right
    show (t1 :: rest).length = L.toNat
    omega
  have hsorted : ∀ x ∈ rest, t1 ≤ x := by
    obtain ⟨t', es', hr', hs⟩ := run_NewThrottler_sorted L hL0 cs hclock
    rw [hrun] at hr'
    simp only [Option.some.injEq, Prod.mk.injEq] at hr'
    have := (hs k).1
    rw [← hr'.1, hrec, List.pairwise_cons] at this
    exact this.1
  refine ⟨?_, ?_, ?_⟩
  · intro hlt
    obtain ⟨t2, ht, _⟩ := Try_WF_reject t k now1 now2 hwf (by
      rw [hrec, inWindow_all, hlim, hcount]
      · omega
      · intro x hx
        rcases List.mem_cons.mp hx with rfl | hx
        · linarith
        · have := hsorted x hx
          linarith)
    exact ⟨t2, ht⟩
  · intro hge
    obtain ⟨t2, ht, _⟩ := Try_WF_admit t k now1 now2 hwf (by
      rw [hrec, inWindow_cons, if_neg (by linarith), hlim, ← hcount]
      have := inWindow_le_length rest now1
      simp only [List.length_cons, Nat.add_zero]
      push_cast
      omega)
    exact ⟨t2, ht⟩
  · intro T0 hT0
    have hM : Minute = 60 * Second := by decide
    have hS : (0 : Int) < Second := by decide
    have hw0 := WF_NewThrottler 2 (by decide)
    obtain ⟨s1, h1, hw1, hl1, hr1⟩ := Try_WF_admit (NewThrottler 2) "u1" T0 T0 hw0 (by
      rw [recordOf_NewThrottler]
      show ((inWindow [0, 0] T0 : Nat) : Int) < 2
      rw [inWindow_cons, inWindow_cons, inWindow_nil, if_neg (by linarith)]
      decide)
    rw [recordOf_NewThrottler] at hr1
    have hr1' : recordOf s1 "u1" = [0, T0] := hr1
    obtain ⟨s2, h2, hw2, hl2, hr2⟩ :=
      Try_WF_admit s1 "u1" (T0 + 10 * Second) (T0 + 10 * Second) hw1 (by
        rw [hr1', hl1, inWindow_cons, inWindow_cons, inWindow_nil,
          if_neg (show ¬ (T0 + 10 * Second - Minute < 0) by linarith),
          if_pos (show T0 + 10 * Second - Minute < T0 by linarith)]
        decide)
    rw [hr1'] at hr2
    have hr2' : recordOf s2 "u1" = [T0, T0 + 10 * Second] := hr2
    obtain ⟨s3, h3, hw3, hl3, hr3⟩ :=
      Try_WF_reject s2 "u1" (T0 + 20 * Second) (T0 + 20 * Second) hw2 (by
        rw [hr2', hl2, hl1, inWindow_cons, inWindow_cons, inWindow_nil, if_pos (by linarith),
          if_pos (by linarith)]
        decide)
    rw [hr2'] at hr3
    obtain ⟨s4, h4, _⟩ :=
      Try_WF_admit s3 "u1" (T0 + 61 * Second) (T0 + 61 * Second) hw3 (by
        rw [hr3, hl3, hl2, hl1, inWindow_cons, inWindow_cons, inWindow_nil,
          if_neg (show ¬ (T0 + 61 * Second - Minute < T0) by linarith),
          if_pos (show T0 + 61 * Second - Minute < T0 + 10 * Second by linarith)]
        decide)
    simp only [scenarioU1, run, h1, h2, h3, h4, Option.map_some']

theorem run_twoCallsU1 :
    run (NewThrottler 2) twoCallsU1 = some (afterTwoCallsU1, [none, none]) := by
  rfl

theorem sliding_window_witness :
    (1 : Int) ≤ 2 ∧ NonDecreasing (clockOf twoCallsU1) ∧
    run (NewThrottler 2) twoCallsU1 = some (afterTwoCallsU1, [none, none]) ∧
    admittedStamps "u1" twoCallsU1 [none, none] = Minute :: [Minute + 10 * Second] ∧
    (((Minute :: [Minute + 10 * Second]).length : Nat) : Int) = 2 ∧
    ((Minute + 20 * Second < Minute + Minute →
        ∃ t2, afterTwoCallsU1.Try "u1" (Minute + 20 * Second) (Minute + 20 * Second)
          = some (t2, LimitedErr)) ∧
     (Minute + Minute ≤ Minute + 20 * Second →
        ∃ t2, afterTwoCallsU1.Try "u1" (Minute + 20 * Second) (Minute + 20 * Second)
          = some (t2, none)) ∧
     (∀ T0 : Time, Minute ≤ T0 →
        (run (NewThrottler 2) (scenarioU1 T0)).map Prod.snd
          = some [none, none, LimitedErr, none])) :=
  ⟨by decide, by decide, run_twoCallsU1, by decide, by decide,
    sliding_window 2 (by decide) "u1" twoCallsU1 afterTwoCallsU1 [none, none] Minute
      [Minute + 10 * Second] (by decide) run_twoCallsU1 (by decide) (by decide)
      (Minute + 20 * Second) (Minute + 20 * Second)⟩

/-- C2, the claim fails as stated for every window `W`: the code compares with
`time.Minute` only.  For `W` = 30 s and limit 1, after one admission recorded
at `Minute` a call 30 s later is rejected although a full `W` has passed.
And the time of the first admission has to be the recorded one: when the
first call reads `Minute` in `Allow` and records `Minute + 1`, the call that
reads `2 * Minute` is rejected. -/
theorem sliding_window_fails_for_other_window :
    ¬ SlidingWindowClaim (30 * Second) ∧
    (run (NewThrottler 1) [⟨"u1", Minute, Minute + 1⟩, ⟨"u1", 2 * Minute, 2 * Minute⟩]).map
      Prod.snd = some [none, LimitedErr] := by
  refine ⟨?_, by decide⟩
  intro h
  have hrun : run (NewThrottler 1) [⟨"u1", Minute, Minute⟩] = some (afterOneCallU1, [none]) :=
    rfl
  have hcase := (h 1 "u1" [⟨"u1", Minute, Minute⟩] afterOneCallU1 [none] Minute []
    (Minute + 30 * Second) (Minute + 30 * Second) (by decide) (by decide) hrun (by decide)
    (by decide)).2 (by decide)
  obtain ⟨t2, ht2⟩ := hcase
  have hreal : afterOneCallU1.Try "u1" (Minute + 30 * Second) (Minute + 30 * Second)
      = some (afterOneCallU1, LimitedErr) := rfl
  rw [hreal] at ht2
  have := (Prod.mk.inj (Option.some.inj ht2)).2
  exact absurd this (by decide)

/-- C3: after an admitted `Try` the record of the key is the record `Allow`
loaded (the key's previous record, or the new one of its first call) with the
second clock reading appended as last entry and, when that record was at
`limit` capacity, without its first entry; the other entries keep their order,
and no other key is touched. -/
theorem Try_admitted_appends (t t2 : Throttler) (k : String) (now1 now2 : Time)
    (h : t.Try k now1 now2 = some (t2, none)) :
    ∃ t1 l l2, t.load k = some (t1, l) ∧ (∀ l0, t.m k = some l0 → l = l0) ∧
      t2.m k = some l2 ∧ l2.limit = l.limit ∧
      l2.lastReqs =
        (if (l.lastReqs.length : Int) = l.limit then l.lastReqs.drop 1 else l.lastReqs)
          ++ [now2] ∧
      ∀ k2, k2 ≠ k → t2.m k2 = t.m k2 := by
  obtain ⟨t1, l, hl, hcase⟩ := Try_inv t t2 k now1 now2 none h
  have hfr := Try_frame t t2 k now1 now2 none h
  have hl0 : ∀ l0, t.m k = some l0 → l = l0 := by
    intro l0 hl0
    rw [load_of_some t k l0 hl0] at hl
    simp only [Option.some.injEq, Prod.mk.injEq] at hl
    exact hl.2.symm
  rcases hcase with ⟨_, he, _⟩ | ⟨_, _, l2, ha, rfl⟩
  · simp [LimitedErr] at he
  · have := AddReq_some l l2 now2 ha
    refine ⟨t1, l, l2, hl, hl0, store_m_same _ _ _, ?_, ?_, hfr.2⟩
    · rw [this]
    · rw [this]

theorem Try_admitted_appends_witness :
    fullU1.Try "u1" (4 * Minute) (4 * Minute)
        = some (fullU1.store "u1" ⟨3, [2 * Minute, 3 * Minute, 4 * Minute]⟩, none) ∧
    ∃ t1 l l2, fullU1.load "u1" = some (t1, l) ∧ (∀ l0, fullU1.m "u1" = some l0 → l = l0) ∧
      (fullU1.store "u1" ⟨3, [2 * Minute, 3 * Minute, 4 * Minute]⟩).m "u1" = some l2 ∧
      l2.limit = l.limit ∧
      l2.lastReqs =
        (if (l.lastReqs.length : Int) = l.limit then l.lastReqs.drop 1 else l.lastReqs)
          ++ [4 * Minute] ∧
      ∀ k2, k2 ≠ "u1" →
        (fullU1.store "u1" ⟨3, [2 * Minute, 3 * Minute, 4 * Minute]⟩).m k2 = fullU1.m k2 :=
  ⟨rfl, Try_admitted_appends fullU1 _ "u1" (4 * Minute) (4 * Minute) rfl⟩

/-- C4: when `Try` returns `LimitedErr`, a key that had a record keeps it and the
whole throttler is unchanged; a key that had no record only receives the new
record of `NewLimit`; in both cases the timestamps the key is counted with are
the same after the call as before, and no other key is touched. -/
theorem Try_limited_keeps_record (t t2 : Throttler) (k : String) (now1 now2 : Time)
    (h : t.Try k now1 now2 = some (t2, LimitedErr)) :
    (∀ l, t.m k = some l → t2 = t) ∧
    (t.m k = none → t2.m k = NewLimit t.limit) ∧
    recordOf t2 k = recordOf t k ∧
    t2.limit = t.limit ∧ ∀ k2, k2 ≠ k → t2.m k2 = t.m k2 := by
  obtain ⟨t1, l, hl, hcase⟩ := Try_inv t t2 k now1 now2 LimitedErr h
  have hfr := Try_frame t t2 k now1 now2 LimitedErr h
  rcases hcase with ⟨_, _, rfl⟩ | ⟨_, he, _⟩
  · have hm := (load_frame t t2 k l hl).1
    rcases load_record t t2 k l hl with ⟨h1, h2⟩ | ⟨h1, h2⟩
    · refine ⟨fun _ _ => h2, fun hn => ?_, by rw [h2], hfr.1, hfr.2⟩
      rw [h1] at hn
      cases hn
    · refine ⟨fun l0 hl0 => ?_, fun _ => by rw [hm, h2], ?_, hfr.1, hfr.2⟩
      · rw [h1] at hl0
        cases hl0
      · have hnn : ¬ t.limit < 0 := by
          intro hneg
          simp [NewLimit, hneg] at h2
        rw [NewLimit_eq _ (by omega)] at h2
        cases h2
        simp [recordOf, hm, h1]
  · simp [LimitedErr] at he

theorem Try_limited_keeps_record_witness :
    afterTwoCallsU1.Try "u1" (Minute + 20 * Second) (Minute + 20 * Second)
        = some (afterTwoCallsU1, LimitedErr) ∧
    ((∀ l, afterTwoCallsU1.m "u1" = some l → afterTwoCallsU1 = afterTwoCallsU1) ∧
     (afterTwoCallsU1.m "u1" = none → afterTwoCallsU1.m "u1" = NewLimit afterTwoCallsU1.limit) ∧
     recordOf afterTwoCallsU1 "u1" = recordOf afterTwoCallsU1 "u1" ∧
     afterTwoCallsU1.limit = afterTwoCallsU1.limit ∧
     ∀ k2, k2 ≠ "u1" → afterTwoCallsU1.m k2 = afterTwoCallsU1.m k2) :=
  ⟨rfl, Try_limited_keeps_record afterTwoCallsU1 afterTwoCallsU1 "u1" (Minute + 20 * Second)
    (Minute + 20 * Second) rfl⟩

/-- C5: every state reached from `NewThrottler L`, `1 ≤ L`, by a sequence of
`Try` calls under a non-decreasing clock exists (no call panics), and in it
every record holds at most `L` timestamps, in non-decreasing order from the
oldest to the newest. -/
theorem records_bounded_and_chronological (L : Int) (hL : 1 ≤ L) (cs : List Call)
    (hclock : NonDecreasing (clockOf cs)) :
    ∃ t es, run (NewThrottler L) cs = some (t, es) ∧
      ∀ k l, t.m k = some l →
        (l.lastReqs.length : Int) ≤ L ∧ l.lastReqs.Pairwise (· ≤ ·) := by
  obtain ⟨t, es, hr, hs⟩ := run_NewThrottler_sorted L (by omega) cs hclock
  obtain ⟨hwf, hlim⟩ := Reachable_WF L t (by omega) ⟨cs, es, hr⟩
  refine ⟨t, es, hr, fun k l hk => ⟨?_, ?_⟩⟩
  · have := (hwf.2 k l hk).2
    omega
  · have := (hs k).1
    rwa [recordOf_of_some t k l hk] at this

theorem records_bounded_and_chronological_witness :
    (1 : Int) ≤ 2 ∧ NonDecreasing (clockOf callsAB) ∧
    ∃ t es, run (NewThrottler 2) callsAB = some (t, es) ∧
      ∀ k l, t.m k = some l →
        (l.lastReqs.length : Int) ≤ 2 ∧ l.lastReqs.Pairwise (· ≤ ·) :=
  ⟨by decide, by decide, records_bounded_and_chronological 2 (by decide) callsAB (by decide)⟩

/-- C6: the window is half-open.  A timestamp equal to `now - Minute` is not
after the lower end, so the loop of `Allow` does not count it; hence a key
whose record holds `L` timestamps (so `1 ≤ L`), the oldest being exactly
`now - Minute`, is admitted at `now`, whatever the other timestamps are. -/
theorem boundary_timestamp_not_counted (L : Int) (t : Throttler)
    (hlim : t.limit = L) (k : String) (l : Limit) (oldest : Time) (others : List Time)
    (now1 now2 : Time) (hrec : t.m k = some l) (hl : l.lastReqs = oldest :: others)
    (hlen : (l.lastReqs.length : Int) = L) (hb : oldest = now1 - Minute) :
    After oldest (Add now1 (-1 * Minute)) = false ∧
    countLoop l.lastReqs now1 = countLoop others now1 ∧
    ∃ t2, t.Try k now1 now2 = some (t2, none) := by
  have hn : ¬ (now1 - Minute < oldest) := by rw [hb]; exact lt_irrefl _
  have hcount : inWindow l.lastReqs now1 = inWindow others now1 := by
    rw [hl, inWindow_cons, if_neg hn]; rfl
  refine ⟨?_, ?_, ?_⟩
  · rw [After_window]; simp [hn]
  · rw [countLoop_eq, countLoop_eq, hcount]
  · have hload := load_of_some t k l hrec
    have hne : l.lastReqs ≠ [] := by rw [hl]; simp
    rw [Try_eq t t k l now1 now2 hload hne]
    have hlt : (inWindow l.lastReqs now1 : Int) < t.limit := by
      rw [hcount, hlim, ← hlen, hl]
      have := inWindow_le_length others now1
      simp only [List.length_cons]
      push_cast
      omega
    simp only [hlt, if_true]
    exact ⟨_, rfl⟩

theorem boundary_timestamp_not_counted_witness :
    fullU1.limit = 3 ∧
    fullU1.m "u1" = some ⟨3, [Minute, 2 * Minute, 3 * Minute]⟩ ∧
    (⟨3, [Minute, 2 * Minute, 3 * Minute]⟩ : Limit).lastReqs
      = Minute :: [2 * Minute, 3 * Minute] ∧
    (((⟨3, [Minute, 2 * Minute, 3 * Minute]⟩ : Limit).lastReqs.length : Nat) : Int) = 3 ∧
    Minute = 2 * Minute - Minute ∧
    (After Minute (Add (2 * Minute) (-1 * Minute)) = false ∧
     countLoop (⟨3, [Minute, 2 * Minute, 3 * Minute]⟩ : Limit).lastReqs (2 * Minute)
       = countLoop [2 * Minute, 3 * Minute] (2 * Minute) ∧
     ∃ t2, fullU1.Try "u1" (2 * Minute) (3 * Minute + Second) = some (t2, none)) :=
  ⟨rfl, rfl, rfl, by decide, by decide,
    boundary_timestamp_not_counted 3 fullU1 rfl "u1"
      ⟨3, [Minute, 2 * Minute, 3 * Minute]⟩ Minute [2 * Minute, 3 * Minute] (2 * Minute)
      (3 * Minute + Second) rfl rfl (by decide) (by decide)⟩

/-- C7: keys are independent.  In any state reached from `NewThrottler L`
(`0 ≤ L`), a call for key `a` returns and leaves the record of every other
key as it was; and for every sequence of calls, the run and the run without
the calls of `a` both return, give the same outcome to every call of another
key, and end with the same record for every other key. -/
theorem per_key_independence (L : Int) (hL : 0 ≤ L) (t : Throttler)
    (hreach : Reachable L t) (a : String) (cs : List Call) :
    (∀ now1 now2, ∃ t1 e, t.Try a now1 now2 = some (t1, e) ∧
        ∀ b, b ≠ a → t1.m b = t.m b) ∧
    ∃ t2 es t3, run t cs = some (t2, es) ∧
      run t (cs.filter (fun c => decide (c.userID ≠ a))) = some (t3, outcomesExcept a cs es) ∧
      ∀ b, b ≠ a → t2.m b = t3.m b := by
  obtain ⟨hwf, _⟩ := Reachable_WF L t hL hreach
  refine ⟨fun now1 now2 => ?_, ?_⟩
  · obtain ⟨t1, e, ht, _⟩ := Try_WF t a now1 now2 hwf
    exact ⟨t1, e, ht, (Try_frame t t1 a now1 now2 e ht).2⟩
  · obtain ⟨t2, es, hr, _⟩ := run_WF cs t hwf
    obtain ⟨t3, hr3, _, hm⟩ := run_filter a cs t t t2 es rfl (fun _ _ => rfl) hr
    exact ⟨t2, es, t3, hr, hr3, hm⟩

theorem per_key_independence_witness :
    (0 : Int) ≤ 2 ∧ Reachable 2 (NewThrottler 2) ∧
    (run (NewThrottler 2) callsAB).map Prod.snd
      = some [none, none, none, LimitedErr, none, LimitedErr] ∧
    ((∀ now1 now2, ∃ t1 e, (NewThrottler 2).Try "A" now1 now2 = some (t1, e) ∧
        ∀ b, b ≠ "A" → t1.m b = (NewThrottler 2).m b) ∧
     ∃ t2 es t3, run (NewThrottler 2) callsAB = some (t2, es) ∧
      run (NewThrottler 2) (callsAB.filter (fun c => decide (c.userID ≠ "A")))
        = some (t3, outcomesExcept "A" callsAB es) ∧
      ∀ b, b ≠ "A" → t2.m b = t3.m b) :=
  ⟨by decide, ⟨[], [], rfl⟩, by decide,
    per_key_independence 2 (by decide) (NewThrottler 2) ⟨[], [], rfl⟩ "A" callsAB⟩

/-! ## Theorems about `client/main.go` -/

/-! ### Phases and the log -/

@[simp] theorem setPhase_log (d : RateLimitedRequester) (i : Nat) (ph : Phase) :
    (d.setPhase i ph).log = d.log := rfl

@[simp] theorem setPhase_qcap (d : RateLimitedRequester) (i : Nat) (ph : Phase) :
    (d.setPhase i ph).qcap = d.qcap := rfl

@[simp] theorem setPhase_qbuf (d : RateLimitedRequester) (i : Nat) (ph : Phase) :
    (d.setPhase i ph).qbuf = d.qbuf := rfl

@[simp] theorem setPhase_length (d : RateLimitedRequester) (i : Nat) (ph : Phase) :
    (d.setPhase i ph).sends.length = d.sends.length := by
  simp [RateLimitedRequester.setPhase]

@[simp] theorem setPhase_doCallsOf (d : RateLimitedRequester) (i j : Nat) (ph : Phase) :
    (d.setPhase i ph).doCallsOf j = d.doCallsOf j := rfl

theorem phaseOf_setPhase_ne (d : RateLimitedRequester) (i j : Nat) (ph : Phase)
    (h : i ≠ j) : (d.setPhase i ph).phaseOf j = d.phaseOf j := by
  simp [RateLimitedRequester.setPhase, RateLimitedRequester.phaseOf,
    List.getElem?_modify_ne _ _ h]

theorem phaseOf_setPhase_same (d : RateLimitedRequester) (i : Nat) (ph ph0 : Phase)
    (h : d.phaseOf i = some ph0) : (d.setPhase i ph).phaseOf i = some ph := by
  unfold RateLimitedRequester.phaseOf at h ⊢
  unfold RateLimitedRequester.setPhase
  simp only [List.getElem?_modify_eq]
  cases hs : d.sends[i]? with
  | none => simp [hs] at h
  | some sc => simp

theorem phaseOf_setPhase (d : RateLimitedRequester) (i j : Nat) (ph ph2 : Phase)
    (h : (d.setPhase i ph).phaseOf j = some ph2) :
    (j = i ∧ ph2 = ph) ∨ (j ≠ i ∧ d.phaseOf j = some ph2) := by
  by_cases hij : i = j
  · subst hij
    left
    cases h0 : d.phaseOf i with
    | none =>
      unfold RateLimitedRequester.phaseOf at h h0
      unfold RateLimitedRequester.setPhase at h
      simp only [List.getElem?_modify_eq] at h
      cases hs : d.sends[i]? with
      | none => simp [hs] at h
      | some sc => simp [hs] at h0
    | some ph0 =>
      rw [phaseOf_setPhase_same d i ph ph0 h0] at h
      exact ⟨rfl, (Option.some.inj h).symm⟩
  · right
    rw [phaseOf_setPhase_ne d i j ph hij] at h
    exact ⟨fun hh => hij hh.symm, h⟩

theorem doCallsOf_append (d : RateLimitedRequester) (e : DoCall) (j : Nat) :
    ({ d with log := d.log ++ [e] } : RateLimitedRequester).doCallsOf j
      = d.doCallsOf j ++ (if e.id = j then [e.out] else []) := by
  unfold RateLimitedRequester.doCallsOf
  by_cases h : e.id = j <;> simp [List.filter_append, List.filter_cons, h]

theorem doCallsOf_nil_of_bound (d : RateLimitedRequester) (j : Nat)
    (hb : ∀ e ∈ d.log, e.id < d.sends.length) (hj : d.sends.length ≤ j) :
    d.doCallsOf j = [] := by
  unfold RateLimitedRequester.doCallsOf
  rw [List.map_eq_nil_iff, List.filter_eq_nil_iff]
  intro e he
  have := hb e he
  simp only [decide_eq_true_eq]
  omega

/-- Changing the phase of one call keeps the invariant when the new phase
agrees with the log. -/
theorem LogInv_setPhase (d d1 : RateLimitedRequester) (i : Nat) (ph : Phase)
    (hinv : LogInv d) (hsends : d1.sends = d.sends) (hqcap : d1.qcap = 0)
    (hqbuf : d1.qbuf = []) (hbound : ∀ e ∈ d1.log, e.id < d.sends.length)
    (hother : ∀ j, j ≠ i → d1.doCallsOf j = d.doCallsOf j)
    (hi : PhaseOK ph (d1.doCallsOf i)) : LogInv (d1.setPhase i ph) := by
  refine ⟨hqcap, hqbuf, ?_, ?_⟩
  · intro e he
    rw [setPhase_length, hsends]
    exact hbound e he
  · intro j ph2 hj
    rw [setPhase_doCallsOf]
    rcases phaseOf_setPhase d1 i j ph ph2 hj with ⟨rfl, rfl⟩ | ⟨hne, hold⟩
    · exact hi
    · rw [hother j hne]
      apply hinv.2.2.2 j ph2
      unfold RateLimitedRequester.phaseOf at hold ⊢
      rw [← hsends]
      exact hold

theorem LogInv_New (q iv cnt : Int) : LogInv (NewRateLimitedRequester q iv cnt) := by
  refine ⟨rfl, rfl, ?_, ?_⟩
  · intro e he
    simp [NewRateLimitedRequester] at he
  · intro i ph h
    simp [NewRateLimitedRequester, RateLimitedRequester.phaseOf] at h

theorem LogInv_congr (d d1 : RateLimitedRequester) (hinv : LogInv d)
    (h1 : d1.qcap = d.qcap) (h2 : d1.qbuf = d.qbuf) (h3 : d1.log = d.log)
    (h4 : d1.sends = d.sends) : LogInv d1 := by
  obtain ⟨a, b, c, e⟩ := hinv
  refine ⟨by rw [h1, a], by rw [h2, b], by rw [h3, h4]; exact c, ?_⟩
  intro i ph hi
  have : d1.doCallsOf i = d.doCallsOf i := by
    unfold RateLimitedRequester.doCallsOf; rw [h3]
  rw [this]
  apply e i ph
  unfold RateLimitedRequester.phaseOf at hi ⊢
  rw [← h4]; exact hi

theorem phaseOf_append (d : RateLimitedRequester) (sc : SendCall) (i : Nat) (ph : Phase)
    (h : ({ d with sends := d.sends ++ [sc] } : RateLimitedRequester).phaseOf i = some ph) :
    (i < d.sends.length ∧ d.phaseOf i = some ph) ∨ (i = d.sends.length ∧ ph = sc.phase) := by
  unfold RateLimitedRequester.phaseOf at h ⊢
  simp only [List.getElem?_append] at h
  by_cases hi : i < d.sends.length
  · left
    simp only [hi, if_true] at h
    exact ⟨hi, h⟩
  · right
    simp only [hi, if_false] at h
    by_cases h0 : i - d.sends.length = 0
    · rw [h0] at h
      simp only [List.getElem?_cons_zero, Option.map_some', Option.some.injEq] at h
      exact ⟨by omega, h.symm⟩
    · obtain ⟨n, hn⟩ := Nat.exists_eq_succ_of_ne_zero h0
      rw [hn] at h
      simp at h

theorem LogInv_sendCall (d : RateLimitedRequester) (sc : SendCall) (hinv : LogInv d)
    (hph : PhaseOK sc.phase []) :
    LogInv ({ d with sends := d.sends ++ [sc] } : RateLimitedRequester) := by
  obtain ⟨a, b, c, e⟩ := hinv
  refine ⟨a, b, ?_, ?_⟩
  · intro x hx
    have := c x hx
    simp only [List.length_append, List.length_cons, List.length_nil]
    omega
  · intro i ph hi
    have hd : ({ d with sends := d.sends ++ [sc] } : RateLimitedRequester).doCallsOf i
        = d.doCallsOf i := rfl
    rw [hd]
    rcases phaseOf_append d sc i ph hi with ⟨_, hold⟩ | ⟨hlen, rfl⟩
    · exact e i ph hold
    · rw [doCallsOf_nil_of_bound d i c (by omega)]
      exact hph

/-- Every step of the system keeps the invariant. -/
theorem step_LogInv (d d2 : RateLimitedRequester) (ev : Event) (hinv : LogInv d)
    (h : step d ev = some d2) : LogInv d2 := by
  cases ev with
  | startCall =>
    simp only [step] at h
    split at h
    · cases h; exact LogInv_congr d _ hinv rfl rfl rfl rfl
    · cases h
  | loopSpawn =>
    simp only [step] at h
    split at h
    · cases h; exact LogInv_congr d _ hinv rfl rfl rfl rfl
    · cases h
  | loopCheck =>
    simp only [step] at h
    split at h
    · split at h <;> (cases h; exact LogInv_congr d _ hinv rfl rfl rfl rfl)
    · cases h
  | loopWake =>
    simp only [step] at h
    split at h
    · cases h; exact LogInv_congr d _ hinv rfl rfl rfl rfl
    · cases h
  | sendCall r =>
    simp only [step] at h
    split at h <;> (cases h; exact LogInv_sendCall d _ hinv rfl)
  | enqueue i =>
    simp only [step] at h
    split at h
    · rename_i hc
      rw [hinv.1] at hc
      exact absurd hc.2 (Nat.not_lt_zero _)
    · cases h
  | dequeue =>
    simp only [step, hinv.2.1] at h
    cases h
  | handoff i =>
    simp only [step] at h
    split at h
    · rename_i hc
      cases h
      apply LogInv_setPhase d _ i _ hinv rfl hinv.1 hinv.2.1 hinv.2.2.1 (fun _ _ => rfl)
      have h0 : PhaseOK Phase.sending (d.doCallsOf i) := hinv.2.2.2 i _ hc.1
      exact h0
    · cases h
  | workerInc i =>
    simp only [step] at h
    split at h
    · rename_i hc
      cases h
      apply LogInv_setPhase d _ i _ hinv rfl hinv.1 hinv.2.1 hinv.2.2.1 (fun _ _ => rfl)
      have h0 : PhaseOK Phase.received (d.doCallsOf i) := hinv.2.2.2 i _ hc
      exact h0
    · cases h
  | workerDo i resp err =>
    simp only [step] at h
    split at h
    · rename_i hc
      cases h
      have hlt : i < d.sends.length := by
        unfold RateLimitedRequester.phaseOf at hc
        cases hs : d.sends[i]? with
        | none => simp [hs] at hc
        | some sc => exact (List.getElem?_eq_some_iff.mp hs).1
      refine LogInv_setPhase d _ i _ hinv rfl hinv.1 hinv.2.1 ?_ ?_ ?_
      · intro e he
        rcases List.mem_append.mp he with he | he
        · exact hinv.2.2.1 e he
        · simp only [List.mem_singleton] at he
          rw [he]; exact hlt
      · intro j hj
        rw [doCallsOf_append]
        have hij : ¬ i = j := fun hh => hj hh.symm
        simp [hij]
      · rw [doCallsOf_append]
        have h0 : d.doCallsOf i = [] := hinv.2.2.2 i _ hc
        simp [h0, PhaseOK]
    · cases h
  | workerDeliver i =>
    simp only [step] at h
    split at h
    · rename_i respErr hc
      cases h
      apply LogInv_setPhase d _ i _ hinv rfl hinv.1 hinv.2.1 hinv.2.2.1 (fun _ _ => rfl)
      have h0 : PhaseOK (Phase.executed respErr) (d.doCallsOf i) := hinv.2.2.2 i _ hc
      exact h0
    · cases h
  | sendReturn i =>
    simp only [step] at h
    split at h
    · rename_i respErr hc
      cases h
      apply LogInv_setPhase d _ i _ hinv rfl hinv.1 hinv.2.1 hinv.2.2.1 (fun _ _ => rfl)
      have h0 : d.doCallsOf i = [respErr] := hinv.2.2.2 i _ hc
      exact ⟨respErr, h0, rfl⟩
    · cases h

/-- Every state reached from a new requester satisfies the invariant. -/
theorem runTrace_LogInv (tr : List Event) :
    ∀ d d2 : RateLimitedRequester, LogInv d → runTrace d tr = some d2 → LogInv d2 := by
  induction tr with
  | nil =>
    intro d d2 hinv h
    simp only [runTrace, Option.some.injEq] at h
    rw [← h]; exact hinv
  | cons ev evs ih =>
    intro d d2 hinv h
    simp only [runTrace] at h
    cases hs : step d ev with
    | none => simp [hs] at h
    | some d1 =>
      simp only [hs] at h
      exact ih d1 d2 (step_LogInv d d1 ev hinv hs) h

/-! ### The claims about the requester -/

theorem phaseOf_lt (d : RateLimitedRequester) (i : Nat) (ph : Phase)
    (h : d.phaseOf i = some ph) : i < d.sends.length := by
  unfold RateLimitedRequester.phaseOf at h
  cases hs : d.sends[i]? with
  | none => simp [hs] at h
  | some sc => exact (List.getElem?_eq_some_iff.mp hs).1

theorem phaseOf_none (d : RateLimitedRequester) (i : Nat) (h : d.phaseOf i = none) :
    d.sends.length ≤ i := by
  unfold RateLimitedRequester.phaseOf at h
  cases hs : d.sends[i]? with
  | none => exact List.getElem?_eq_none_iff.mp hs
  | some sc => simp [hs] at h

theorem PhaseOK_length (ph : Phase) (l : List RespErr) (h : PhaseOK ph l) : l.length ≤ 1 := by
  cases ph with
  | executed r => have : l = [r] := h; simp [this]
  | delivered r => have : l = [r] := h; simp [this]
  | returned resp err => obtain ⟨r, hr, _⟩ := h; simp [hr]
  | rejected => have : l = [] := h; simp [this]
  | sending => have : l = [] := h; simp [this]
  | queued => have : l = [] := h; simp [this]
  | received => have : l = [] := h; simp [this]
  | counted => have : l = [] := h; simp [this]

theorem step_workerInc_some (d : RateLimitedRequester) (i : Nat)
    (h : d.phaseOf i = some Phase.received) :
    ∃ d1, step d (Event.workerInc i) = some d1 ∧ d1.phaseOf i = some Phase.counted ∧
      d1.log = d.log ∧ d1.pauses = d.pauses := by
  refine ⟨({ d with c := d.c + 1 } : RateLimitedRequester).setPhase i Phase.counted, ?_,
    phaseOf_setPhase_same _ i _ Phase.received h, rfl, rfl⟩
  simp only [step, h, if_true]

theorem step_workerDo_some (d : RateLimitedRequester) (i : Nat) (resp : Option Response)
    (err : error) (h : d.phaseOf i = some Phase.counted) :
    ∃ d1, step d (Event.workerDo i resp err) = some d1 ∧
      d1.phaseOf i = some (Phase.executed ⟨resp, err⟩) ∧
      d1.log = d.log ++ [DoCall.mk i d.pauses ⟨resp, err⟩] := by
  refine ⟨({ d with log := d.log ++ [DoCall.mk i d.pauses ⟨resp, err⟩] } :
      RateLimitedRequester).setPhase i (Phase.executed ⟨resp, err⟩), ?_,
    phaseOf_setPhase_same _ i _ Phase.counted h, rfl⟩
  simp only [step, h, if_true]

theorem step_workerDeliver_some (d : RateLimitedRequester) (i : Nat) (respErr : RespErr)
    (h : d.phaseOf i = some (Phase.executed respErr)) :
    ∃ d1, step d (Event.workerDeliver i) = some d1 ∧
      d1.phaseOf i = some (Phase.delivered respErr) ∧ d1.log = d.log := by
  refine ⟨d.setPhase i (Phase.delivered respErr), ?_, phaseOf_setPhase_same _ i _ _ h, rfl⟩
  simp only [step, h]

theorem step_sendReturn_some (d : RateLimitedRequester) (i : Nat) (respErr : RespErr)
    (h : d.phaseOf i = some (Phase.delivered respErr)) :
    ∃ d1, step d (Event.sendReturn i) = some d1 ∧
      d1.phaseOf i = some (Phase.returned (sendResult respErr).1 (sendResult respErr).2) ∧
      d1.log = d.log := by
  refine ⟨d.setPhase i (Phase.returned (sendResult respErr).1 (sendResult respErr).2), ?_,
    phaseOf_setPhase_same _ i _ _ h, rfl⟩
  simp only [step, h]

/-- Once a worker holds the request of call `i`, the worker and `Send` can run
to the end without waiting for anything: the executor is invoked once and
`Send` returns `sendResult` of what the executor returned. -/
theorem serve_received (d : RateLimitedRequester) (i : Nat) (resp : Option Response)
    (err : error) (hinv : LogInv d) (hph : d.phaseOf i = some Phase.received) :
    ∃ d2, runTrace d [Event.workerInc i, Event.workerDo i resp err, Event.workerDeliver i,
        Event.sendReturn i] = some d2 ∧
      d2.doCallsOf i = [⟨resp, err⟩] ∧
      d2.sendReturned i = some (sendResult ⟨resp, err⟩) := by
  have h0 : d.doCallsOf i = [] := hinv.2.2.2 i _ hph
  obtain ⟨d1, s1, p1, l1, _⟩ := step_workerInc_some d i hph
  obtain ⟨d2, s2, p2, l2⟩ := step_workerDo_some d1 i resp err p1
  obtain ⟨d3, s3, p3, l3⟩ := step_workerDeliver_some d2 i _ p2
  obtain ⟨d4, s4, p4, l4⟩ := step_sendReturn_some d3 i _ p3
  refine ⟨d4, ?_, ?_, ?_⟩
  · simp only [runTrace, s1, s2, s3, s4]
  · unfold RateLimitedRequester.doCallsOf at h0 ⊢
    rw [l4, l3, l2, l1, List.filter_append, List.map_append, h0]
    simp
  · unfold RateLimitedRequester.sendReturned
    rw [p4]

/-- C10: in every state reached from a new requester, for every call `i` of
`Send`: the executor has been invoked at most once for it; when the call has
returned after being enqueued, the executor was invoked exactly once and
`Send` returned its outcome (a failure gives no response and the same error, a
success gives the response and a nil error); and as soon as a worker holds the
request, worker and `Send` run to the end without waiting, with one executor
invocation, and `Send` returns what the executor returned. -/
theorem executor_pass_through (q iv cnt : Int) (tr : List Event) (d : RateLimitedRequester)
    (hrun : runTrace (NewRateLimitedRequester q iv cnt) tr = some d) (i : Nat) :
    (d.doCallsOf i).length ≤ 1 ∧
    (∀ resp err, d.phaseOf i = some (Phase.returned resp err) →
      ∃ respErr, d.doCallsOf i = [respErr] ∧
        (respErr.Err ≠ none → resp = none ∧ err = respErr.Err) ∧
        (respErr.Err = none → resp = respErr.Resp ∧ err = none)) ∧
    (d.phaseOf i = some Phase.received → ∀ resp err, ∃ d2,
      runTrace d [Event.workerInc i, Event.workerDo i resp err, Event.workerDeliver i,
        Event.sendReturn i] = some d2 ∧
      d2.doCallsOf i = [⟨resp, err⟩] ∧
      d2.sendReturned i = some (if err ≠ none then (none, err) else (resp, none))) := by
  have hinv := runTrace_LogInv tr _ d (LogInv_New q iv cnt) hrun
  refine ⟨?_, ?_, ?_⟩
  · cases hp : d.phaseOf i with
    | none =>
      rw [doCallsOf_nil_of_bound d i hinv.2.2.1 (phaseOf_none d i hp)]
      simp
    | some ph => exact PhaseOK_length ph _ (hinv.2.2.2 i ph hp)
  · intro resp err hp
    obtain ⟨respErr, hlog, hres⟩ := hinv.2.2.2 i _ hp
    refine ⟨respErr, hlog, ?_, ?_⟩
    · intro hne
      simp only [sendResult, hne, ne_eq, not_false_eq_true, if_true, Prod.mk.injEq] at hres
      exact hres
    · intro he
      simp only [sendResult, he, ne_eq, not_true_eq_false, if_false, Prod.mk.injEq] at hres
      exact hres
  · intro hp resp err
    obtain ⟨d2, h1, h2, h3⟩ := serve_received d i resp err hinv hp
    refine ⟨d2, h1, h2, ?_⟩
    rw [h3]
    rfl

theorem run_serveOne : runTrace mainRequester serveOne = some afterServeOne := by
  decide

theorem executor_pass_through_witness :
    runTrace (NewRateLimitedRequester 5 (1 * Minute) 2) serveOne = some afterServeOne ∧
    afterServeOne.phaseOf 0 = some (Phase.returned none (some "boom")) ∧
    ((afterServeOne.doCallsOf 0).length ≤ 1 ∧
    (∀ resp err, afterServeOne.phaseOf 0 = some (Phase.returned resp err) →
      ∃ respErr, afterServeOne.doCallsOf 0 = [respErr] ∧
        (respErr.Err ≠ none → resp = none ∧ err = respErr.Err) ∧
        (respErr.Err = none → resp = respErr.Resp ∧ err = none)) ∧
    (afterServeOne.phaseOf 0 = some Phase.received → ∀ resp err, ∃ d2,
      runTrace afterServeOne [Event.workerInc 0, Event.workerDo 0 resp err,
        Event.workerDeliver 0, Event.sendReturn 0] = some d2 ∧
      d2.doCallsOf 0 = [⟨resp, err⟩] ∧
      d2.sendReturned 0 = some (if err ≠ none then (none, err) else (resp, none)))) :=
  ⟨run_serveOne, by decide,
    executor_pass_through 5 (1 * Minute) 2 serveOne afterServeOne run_serveOne 0⟩

/-- C8, the code on the requester of `main` (`QSize` 5): six calls of `Send`
with no worker running.  None returns the "queue is full" error; `len(q)` stays
0; every call stands at the channel send of line 86, where neither a buffered
send nor a hand-over is possible: all six are blocked. -/
theorem six_sends_none_rejected :
    ∃ d, runTrace mainRequester sixSends = some d ∧
      d.lenQ = 0 ∧ d.rl.QSize = 5 ∧
      d.sends.map (·.phase) = List.replicate 6 Phase.sending ∧
      ∀ i, i < 6 → d.sendReturned i = none ∧
        step d (Event.enqueue i) = none ∧ step d (Event.handoff i) = none := by
  refine ⟨_, rfl, ?_⟩
  decide

/-- C9, the code on the requester of `main` (`Count` 2, interval one minute):
the loop of `Start` runs three rounds while no request has arrived (the counter
is 0, so the test of line 66 never sleeps), then three requests arrive.  All
three are executed and none has waited for an interval pause: the log shows
three invocations of the executor with no pause finished, and the loop never
slept. -/
theorem three_requests_start_without_pause :
    ∃ d, runTrace mainRequester threeAtOnce = some d ∧
      d.log.map (·.id) = [0, 1, 2] ∧ d.log.map (·.pauses) = [0, 0, 0] ∧
      d.pauses = 0 ∧ d.loop = LoopPC.spawn ∧ d.c = 3 ∧ d.rl.Count = 2 := by
  refine ⟨_, rfl, ?_⟩
  decide

/-! ## Further claims about the throttle -/

/-! ### Monotonicity in time -/

theorem inWindow_antitone (record : List Time) (t t2 : Time) (h : t ≤ t2) :
    inWindow record t2 ≤ inWindow record t := by
  unfold inWindow
  apply List.countP_mono_left
  intro x _ hx
  simp only [decide_eq_true_eq] at hx ⊢
  linarith

theorem inWindow_eq_zero (record : List Time) (now : Time)
    (h : ∀ x ∈ record, x ≤ now - Minute) : inWindow record now = 0 := by
  unfold inWindow
  rw [List.countP_eq_zero]
  intro a ha
  have := h a ha
  simp only [decide_eq_true_eq, not_lt]
  exact this

theorem Allow_true_inv (th th1 : Throttler) (k : String) (now : Time)
    (h : th.Allow k now = some (th1, true)) :
    ∃ l, th.load k = some (th1, l) ∧ (inWindow l.lastReqs now : Int) < th.limit := by
  cases hl : th.load k with
  | none => simp [Throttler.Allow, hl] at h
  | some p =>
    obtain ⟨t1, l⟩ := p
    rw [Allow_eq th t1 k l now hl] at h
    simp only [Option.some.injEq, Prod.mk.injEq, decide_eq_true_eq] at h
    exact ⟨l, by rw [h.1], h.2⟩

/-- C19: for a fixed record and times `t ≤ t2`, the loop of `Allow` counts at
`t2` at most what it counts at `t`; hence whenever `Allow` admits a key at `t`
it admits it at `t2`, from the same state and leaving the same state; and a key
whose record is in chronological order with its newest timestamp at or before
`t - Minute` is admitted at `t` when the limit is at least 1. -/
theorem count_antitone_in_time (record : List Time) (t t2 : Time) (h : t ≤ t2) :
    countLoop record t2 ≤ countLoop record t ∧
    (∀ (th th1 : Throttler) (k : String),
      th.Allow k t = some (th1, true) → th.Allow k t2 = some (th1, true)) ∧
    (∀ (th : Throttler) (k : String) (l : Limit) (newest : Time),
      th.m k = some l → 1 ≤ th.limit → l.lastReqs.Pairwise (· ≤ ·) →
      l.lastReqs.getLast? = some newest → newest ≤ t - Minute →
      th.Allow k t = some (th, true)) := by
  refine ⟨?_, ?_, ?_⟩
  · rw [countLoop_eq, countLoop_eq]
    exact_mod_cast inWindow_antitone record t t2 h
  · intro th th1 k hadm
    obtain ⟨l, hl, hc⟩ := Allow_true_inv th th1 k t hadm
    rw [Allow_eq th th1 k l t2 hl]
    have := inWindow_antitone l.lastReqs t t2 h
    have hc2 : (inWindow l.lastReqs t2 : Int) < th.limit := by
      have : (inWindow l.lastReqs t2 : Int) ≤ (inWindow l.lastReqs t : Int) := by
        exact_mod_cast this
      omega
    simp [hc2]
  · intro th k l newest hm hlim hsorted hlast hold
    rw [Allow_eq th th k l t (load_of_some th k l hm)]
    have hall : ∀ x ∈ l.lastReqs, x ≤ t - Minute := by
      obtain ⟨ys, hys⟩ := List.getLast?_eq_some_iff.mp hlast
      intro x hx
      rw [hys] at hx hsorted
      rcases List.mem_append.mp hx with hx | hx
      · have := (List.pairwise_append.mp hsorted).2.2 x hx newest (by simp)
        linarith
      · simp only [List.mem_singleton] at hx
        rw [hx]; exact hold
    rw [inWindow_eq_zero _ _ hall]
    have hpos : (0 : Int) < th.limit := by omega
    simp [hpos]

theorem count_antitone_in_time_witness :
    (Minute + 20 * Second : Time) ≤ Minute + 61 * Second ∧
    (countLoop [Minute, Minute + 10 * Second] (Minute + 61 * Second)
        ≤ countLoop [Minute, Minute + 10 * Second] (Minute + 20 * Second) ∧
    (∀ (th th1 : Throttler) (k : String),
      th.Allow k (Minute + 20 * Second) = some (th1, true) →
      th.Allow k (Minute + 61 * Second) = some (th1, true)) ∧
    (∀ (th : Throttler) (k : String) (l : Limit) (newest : Time),
      th.m k = some l → 1 ≤ th.limit → l.lastReqs.Pairwise (· ≤ ·) →
      l.lastReqs.getLast? = some newest → newest ≤ Minute + 20 * Second - Minute →
      th.Allow k (Minute + 20 * Second) = some (th, true))) :=
  ⟨by decide, count_antitone_in_time [Minute, Minute + 10 * Second] (Minute + 20 * Second)
    (Minute + 61 * Second) (by decide)⟩

/-! ### The record is a ring of fixed size -/

theorem AddReqs_ring (ts : List Time) :
    ∀ l : Limit, (l.lastReqs.length : Int) = l.limit → 1 ≤ l.limit →
      ∃ l2, AddReqs l ts = some l2 ∧ l2.limit = l.limit ∧
        (l2.lastReqs.length : Int) = l.limit ∧
        l2.lastReqs = lastN l.limit.toNat (l.lastReqs ++ ts) := by
  induction ts with
  | nil =>
    intro l hlen _
    refine ⟨l, rfl, rfl, hlen, ?_⟩
    rw [List.append_nil, lastN_all]
    omega
  | cons a ts ih =>
    intro l hlen hL
    have hne : l.lastReqs ≠ [] := by
      intro h0
      rw [h0] at hlen
      simp only [List.length_nil, Nat.cast_zero] at hlen
      omega
    have hpos : 1 ≤ l.lastReqs.length := by
      cases hq : l.lastReqs with
      | nil => exact absurd hq hne
      | cons b bs => simp
    have hstep := AddReq_eq l a hne
    rw [if_pos hlen] at hstep
    obtain ⟨l2, h2, hlim2, hlen2, hrec2⟩ :=
      ih { l with lastReqs := l.lastReqs.drop 1 ++ [a] }
        (by
          simp only [List.length_append, List.length_drop, List.length_cons, List.length_nil]
          rw [← hlen]; omega)
        hL
    refine ⟨l2, ?_, hlim2, hlen2, ?_⟩
    · simp only [AddReqs, hstep]
      exact h2
    · rw [hrec2]
      exact lastN_shift l.limit.toNat l.lastReqs ts a (by omega) (by omega)

/-- C18: for `1 ≤ L` the record made by `NewLimit L` has exactly `L` slots, and
any sequence of `AddReq` calls on it returns (no slice index is out of range),
leaves exactly `L` slots, namely the last `L` of the zero slots followed by the
added timestamps; before each of the calls the test of line 23 is true, so the
call takes the shifting branch and never the `append` of line 31. -/
theorem ring_of_fixed_size (L : Int) (hL : 1 ≤ L) (ts : List Time) :
    ∃ l0 l, NewLimit L = some l0 ∧ (l0.lastReqs.length : Int) = L ∧
      AddReqs l0 ts = some l ∧ l.limit = L ∧ (l.lastReqs.length : Int) = L ∧
      l.lastReqs = lastN L.toNat (List.replicate L.toNat zeroTime ++ ts) ∧
      ∀ pre t post, ts = pre ++ t :: post →
        ∃ l1, AddReqs l0 pre = some l1 ∧ shiftBranch l1 = true ∧
          (l1.lastReqs.length : Int) = L := by
  have h0len : ((List.replicate L.toNat zeroTime).length : Int) = L := by
    simp [Int.toNat_of_nonneg (show (0 : Int) ≤ L by omega)]
  obtain ⟨l, h1, h2, h3, h4⟩ :=
    AddReqs_ring ts ⟨L, List.replicate L.toNat zeroTime⟩ h0len hL
  refine ⟨⟨L, List.replicate L.toNat zeroTime⟩, l, NewLimit_eq L (by omega), h0len, h1, h2,
    h3, h4, ?_⟩
  intro pre t post _
  obtain ⟨l1, g1, g2, g3, _⟩ :=
    AddReqs_ring pre ⟨L, List.replicate L.toNat zeroTime⟩ h0len hL
  refine ⟨l1, g1, ?_, g3⟩
  simp only [shiftBranch, decide_eq_true_eq]
  rw [g3, g2]

theorem ring_of_fixed_size_witness :
    (1 : Int) ≤ 2 ∧
    AddReqs ⟨2, [0, 0]⟩ [Minute, 2 * Minute, 3 * Minute] = some ⟨2, [2 * Minute, 3 * Minute]⟩ ∧
    ∃ l0 l, NewLimit 2 = some l0 ∧ (l0.lastReqs.length : Int) = 2 ∧
      AddReqs l0 [Minute, 2 * Minute, 3 * Minute] = some l ∧ l.limit = 2 ∧
      (l.lastReqs.length : Int) = 2 ∧
      l.lastReqs = lastN (2 : Int).toNat
        (List.replicate (2 : Int).toNat zeroTime ++ [Minute, 2 * Minute, 3 * Minute]) ∧
      ∀ pre t post, [Minute, 2 * Minute, 3 * Minute] = pre ++ t :: post →
        ∃ l1, AddReqs l0 pre = some l1 ∧ shiftBranch l1 = true ∧
          (l1.lastReqs.length : Int) = 2 :=
  ⟨by decide, by decide, ring_of_fixed_size 2 (by decide) [Minute, 2 * Minute, 3 * Minute]⟩

/-! ### New callers are not rejected -/

theorem inWindow_le_nonzero (record : List Time) (now : Time) (h : Minute ≤ now) :
    inWindow record now ≤ record.countP (fun x => decide (x ≠ zeroTime)) := by
  unfold inWindow
  apply List.countP_mono_left
  intro x _ hx
  simp only [decide_eq_true_eq, ne_eq] at hx ⊢
  intro h0
  rw [h0] at hx
  have : (zeroTime : Int) = 0 := rfl
  linarith

theorem nonzero_shift_le (r : List Time) (a : Time) :
    (r.drop 1 ++ [a]).countP (fun x => decide (x ≠ zeroTime))
      ≤ r.countP (fun x => decide (x ≠ zeroTime)) + 1 := by
  rw [List.countP_append]
  have h1 := List.Sublist.countP_le (p := fun x => decide (x ≠ zeroTime)) (List.drop_sublist 1 r)
  have h2 := List.countP_le_length (p := fun x => decide (x ≠ zeroTime)) (l := [a])
  simp only [List.length_cons, List.length_nil] at h2
  omega

/-- While the slots of a key that are not zero, plus the calls for the key
still to come, do not exceed the limit, every call for the key whose clock is
at least one window after the zero time is admitted. -/
theorem run_admits_while_room (k : String) (cs : List Call) :
    ∀ t : Throttler, WF t →
      (((recordOf t k).countP (fun x => decide (x ≠ zeroTime))
        + cs.countP (fun c => decide (c.userID = k)) : Nat) : Int) ≤ t.limit →
      (∀ c ∈ cs, c.userID = k → Minute ≤ c.now1) →
      ∃ t2 es, run t cs = some (t2, es) ∧ es.length = cs.length ∧
        ∀ p ∈ cs.zip es, p.1.userID = k → p.2 = none := by
  induction cs with
  | nil =>
    intro t _ _ _
    exact ⟨t, [], rfl, rfl, by simp⟩
  | cons c cs ih =>
    intro t hwf hroom hclock
    obtain ⟨t1, e, ht, hwf1, hlim1, hadm, _, hrec⟩ := Try_WF t c.userID c.now1 c.now2 hwf
    by_cases hk : c.userID = k
    · have hc1 : Minute ≤ c.now1 := hclock c (List.mem_cons_self _ _) hk
      have hcnt := inWindow_le_nonzero (recordOf t k) c.now1 hc1
      simp only [List.countP_cons, hk, decide_True, if_true] at hroom
      have he : e = none := by
        apply hadm.mpr
        rw [hk]
        push_cast at hroom ⊢
        have : (inWindow (recordOf t k) c.now1 : Int)
            ≤ ((recordOf t k).countP (fun x => decide (x ≠ zeroTime)) : Int) := by
          exact_mod_cast hcnt
        omega
      subst he
      have hrk : recordOf t1 k = (recordOf t k).drop 1 ++ [c.now2] := by
        rw [hrec k]
        simp [hk]
      obtain ⟨t2, es, hr, hlen, hall⟩ := ih t1 hwf1 (by
          rw [hrk, hlim1]
          have := nonzero_shift_le (recordOf t k) c.now2
          push_cast at hroom ⊢
          have h' : (((recordOf t k).drop 1 ++ [c.now2]).countP
              (fun x => decide (x ≠ zeroTime)) : Int)
              ≤ ((recordOf t k).countP (fun x => decide (x ≠ zeroTime)) : Int) + 1 := by
            exact_mod_cast this
          omega)
        (fun c2 hc2 => hclock c2 (List.mem_cons_of_mem _ hc2))
      refine ⟨t2, none :: es, ?_, by simp [hlen], ?_⟩
      · rw [run_cons_eq t t1 c cs none ht, hr]; rfl
      · intro p hp hpk
        simp only [List.zip_cons_cons, List.mem_cons] at hp
        rcases hp with rfl | hp
        · rfl
        · exact hall p hp hpk
    · have hrk : recordOf t1 k = recordOf t k := by
        rw [hrec k]
        have : ¬ (k = c.userID ∧ e = none) := fun hh => hk hh.1.symm
        simp [this]
      simp only [List.countP_cons, hk, decide_False, Bool.false_eq_true, if_false,
        Nat.add_zero] at hroom
      obtain ⟨t2, es, hr, hlen, hall⟩ := ih t1 hwf1 (by rw [hrk, hlim1]; exact hroom)
        (fun c2 hc2 => hclock c2 (List.mem_cons_of_mem _ hc2))
      refine ⟨t2, e :: es, ?_, by simp [hlen], ?_⟩
      · rw [run_cons_eq t t1 c cs e ht, hr]; rfl
      · intro p hp hpk
        simp only [List.zip_cons_cons, List.mem_cons] at hp
        rcases hp with rfl | hp
        · exact absurd hpk hk
        · exact hall p hp hpk

/-- C17: let `1 ≤ L`, a state reached from `NewThrottler L`, and a key with no
record in it.  In any run of calls (of any keys, in any order of the clock), as
long as the key is called at most `L` times and each of its calls reads a clock
at least one window after the zero time, every call for the key returns `nil`;
and the `L` zero slots that `NewLimit` puts in the new record count for nothing
at such a clock reading. -/
theorem new_caller_first_calls_admitted (L : Int) (hL : 1 ≤ L) (t : Throttler)
    (hreach : Reachable L t) (k : String) (hnew : t.m k = none) (cs : List Call)
    (hcalls : ((cs.countP (fun c => decide (c.userID = k)) : Nat) : Int) ≤ L)
    (hclock : ∀ c ∈ cs, c.userID = k → Minute ≤ c.now1) :
    (∃ t2 es, run t cs = some (t2, es) ∧ es.length = cs.length ∧
      ∀ p ∈ cs.zip es, p.1.userID = k → p.2 = none) ∧
    ∀ now : Time, Minute ≤ now → ∀ l, NewLimit L = some l → countLoop l.lastReqs now = 0 := by
  obtain ⟨hwf, hlim⟩ := Reachable_WF L t (by omega) hreach
  have hzero : (List.replicate L.toNat zeroTime).countP (fun x => decide (x ≠ zeroTime)) = 0 := by
    rw [List.countP_eq_zero]
    intro a ha
    have := List.eq_of_mem_replicate ha
    simp [this]
  refine ⟨?_, ?_⟩
  · apply run_admits_while_room k cs t hwf _ hclock
    have hr : recordOf t k = List.replicate L.toNat zeroTime := by
      simp [recordOf, hnew, hlim]
    rw [hr, hzero, hlim]
    simpa using hcalls
  · intro now hnow l hl
    rw [NewLimit_eq L (by omega)] at hl
    cases hl
    rw [countLoop_eq]
    have := inWindow_le_nonzero (List.replicate L.toNat zeroTime) now hnow
    rw [hzero] at this
    simp only [Nat.le_zero] at this
    simp [this]

theorem new_caller_first_calls_admitted_witness :
    (1 : Int) ≤ 3 ∧ Reachable 3 (NewThrottler 3) ∧ (NewThrottler 3).m "new" = none ∧
    ((threeCallsNew.countP (fun c => decide (c.userID = "new")) : Nat) : Int) ≤ 3 ∧
    (∀ c ∈ threeCallsNew, c.userID = "new" → Minute ≤ c.now1) ∧
    ((∃ t2 es, run (NewThrottler 3) threeCallsNew = some (t2, es) ∧
        es.length = threeCallsNew.length ∧
        ∀ p ∈ threeCallsNew.zip es, p.1.userID = "new" → p.2 = none) ∧
      ∀ now : Time, Minute ≤ now → ∀ l, NewLimit 3 = some l → countLoop l.lastReqs now = 0) :=
  ⟨by decide, ⟨[], [], rfl⟩, rfl, by decide, by decide,
    new_caller_first_calls_admitted 3 (by decide) (NewThrottler 3) ⟨[], [], rfl⟩ "new" rfl
      threeCallsNew (by decide) (by decide)⟩

/-! ### Creation of the records -/

theorem run_untouched (k : String) (cs : List Call) :
    ∀ (t t2 : Throttler) (es : List error), run t cs = some (t2, es) →
      (∀ c ∈ cs, c.userID ≠ k) → t2.m k = t.m k := by
  induction cs with
  | nil =>
    intro t t2 es hr _
    simp only [run, Option.some.injEq, Prod.mk.injEq] at hr
    rw [← hr.1]
  | cons c cs ih =>
    intro t t2 es hr hne
    obtain ⟨t1, e, es1, ht, hr1, _⟩ := run_cons_inv t t2 c cs es hr
    rw [ih t1 t2 es1 hr1 (fun c2 hc2 => hne c2 (List.mem_cons_of_mem _ hc2))]
    exact (Try_frame t t1 c.userID c.now1 c.now2 e ht).2 k
      (fun h => hne c (List.mem_cons_self _ _) h.symm)

/-- In a well-formed state `Try` works on the record `load` returns: a
rejection leaves that record, an admission stores what `AddReq` makes of it. -/
theorem Try_uses_loaded_record (t t1 : Throttler) (k : String) (l : Limit)
    (now1 now2 : Time) (hwf : WF t) (hl : t.load k = some (t1, l)) :
    ∃ t2 e, t.Try k now1 now2 = some (t2, e) ∧
      ((e = LimitedErr ∧ t2.m k = some l) ∨
       (e = none ∧ ∃ l2, AddReq l now2 = some l2 ∧ t2.m k = some l2)) := by
  obtain ⟨t2, e, ht, _⟩ := Try_WF t k now1 now2 hwf
  obtain ⟨t1', l', hl', hcase⟩ := Try_inv t t2 k now1 now2 e ht
  rw [hl] at hl'
  simp only [Option.some.injEq, Prod.mk.injEq] at hl'
  obtain ⟨rfl, rfl⟩ := hl'
  refine ⟨t2, e, ht, ?_⟩
  rcases hcase with ⟨_, he, rfl⟩ | ⟨_, he, l2, ha, rfl⟩
  · exact Or.inl ⟨he, (load_frame t t2 k l hl).1⟩
  · exact Or.inr ⟨he, l2, ha, store_m_same _ _ _⟩

/-- C13, the claim fails as stated: the record that the first call creates is
not empty.  On `NewThrottler(2)` the first `Allow("u1")` leaves a record whose
slice holds two zero timestamps. -/
theorem first_call_record_not_empty :
    ∃ t b, (NewThrottler 2).Allow "u1" (2 * Minute) = some (t, b) ∧
      (t.m "u1").map (·.lastReqs) = some [zeroTime, zeroTime] ∧
      (t.m "u1").map (·.lastReqs) ≠ some [] :=
  ⟨(NewThrottler 2).store "u1" ⟨2, [0, 0]⟩, true, rfl, rfl, by decide⟩

/-- C13 as amended: a key has no record as long as no call was made for it;
the first `Allow` or `Try` for it creates a record of exactly `limit` slots,
all holding the zero time; a call for a key that has a record leaves the state
as it is in `Allow` and works in `Try` on that very record, which is kept on a
rejection and passed to `AddReq` on an admission, never made anew. -/
theorem record_created_once (L : Int) (hL : 0 ≤ L) (t : Throttler) (hreach : Reachable L t)
    (k : String) (now1 now2 : Time) :
    (∀ cs t2 es, run (NewThrottler L) cs = some (t2, es) → (∀ c ∈ cs, c.userID ≠ k) →
      t2.m k = none) ∧
    (t.m k = none →
      ∃ l0, NewLimit L = some l0 ∧ l0.lastReqs = List.replicate L.toNat zeroTime ∧
        (l0.lastReqs.length : Int) = L ∧
        (∃ t1 b, t.Allow k now1 = some (t1, b) ∧ t1.m k = some l0) ∧
        ∃ t2 e, t.Try k now1 now2 = some (t2, e) ∧
          ((e = LimitedErr ∧ t2.m k = some l0) ∨
           (e = none ∧ ∃ l2, AddReq l0 now2 = some l2 ∧ t2.m k = some l2))) ∧
    (∀ l, t.m k = some l →
      (∃ b, t.Allow k now1 = some (t, b)) ∧
      ∃ t2 e, t.Try k now1 now2 = some (t2, e) ∧
        ((e = LimitedErr ∧ t2.m k = some l) ∨
         (e = none ∧ ∃ l2, AddReq l now2 = some l2 ∧ t2.m k = some l2))) := by
  obtain ⟨hwf, hlim⟩ := Reachable_WF L t hL hreach
  refine ⟨?_, ?_, ?_⟩
  · intro cs t2 es hr hne
    rw [run_untouched k cs (NewThrottler L) t2 es hr hne]
    rfl
  · intro hnone
    have hload : t.load k = some (t.store k ⟨L, List.replicate L.toNat zeroTime⟩,
        ⟨L, List.replicate L.toNat zeroTime⟩) := by
      rw [load_of_none t k hnone, hlim, NewLimit_eq L hL]
      rfl
    refine ⟨⟨L, List.replicate L.toNat zeroTime⟩, NewLimit_eq L hL, rfl, ?_, ?_, ?_⟩
    · simp [Int.toNat_of_nonneg hL]
    · exact ⟨_, _, Allow_eq t _ k _ now1 hload, store_m_same _ _ _⟩
    · exact Try_uses_loaded_record t _ k _ now1 now2 hwf hload
  · intro l hl
    have hload := load_of_some t k l hl
    exact ⟨⟨_, Allow_eq t t k l now1 hload⟩,
      Try_uses_loaded_record t t k l now1 now2 hwf hload⟩

theorem record_created_once_witness :
    (0 : Int) ≤ 2 ∧ Reachable 2 (NewThrottler 2) ∧
    ((∀ cs t2 es, run (NewThrottler 2) cs = some (t2, es) → (∀ c ∈ cs, c.userID ≠ "u1") →
      t2.m "u1" = none) ∧
    ((NewThrottler 2).m "u1" = none →
      ∃ l0, NewLimit 2 = some l0 ∧ l0.lastReqs = List.replicate (2 : Int).toNat zeroTime ∧
        (l0.lastReqs.length : Int) = 2 ∧
        (∃ t1 b, (NewThrottler 2).Allow "u1" (2 * Minute) = some (t1, b) ∧
          t1.m "u1" = some l0) ∧
        ∃ t2 e, (NewThrottler 2).Try "u1" (2 * Minute) (2 * Minute) = some (t2, e) ∧
          ((e = LimitedErr ∧ t2.m "u1" = some l0) ∨
           (e = none ∧ ∃ l2, AddReq l0 (2 * Minute) = some l2 ∧ t2.m "u1" = some l2))) ∧
    (∀ l, (NewThrottler 2).m "u1" = some l →
      (∃ b, (NewThrottler 2).Allow "u1" (2 * Minute) = some (NewThrottler 2, b)) ∧
      ∃ t2 e, (NewThrottler 2).Try "u1" (2 * Minute) (2 * Minute) = some (t2, e) ∧
        ((e = LimitedErr ∧ t2.m "u1" = some l) ∨
         (e = none ∧ ∃ l2, AddReq l (2 * Minute) = some l2 ∧ t2.m "u1" = some l2)))) :=
  ⟨by decide, ⟨[], [], rfl⟩,
    record_created_once 2 (by decide) (NewThrottler 2) ⟨[], [], rfl⟩ "u1" (2 * Minute)
      (2 * Minute)⟩

/-! ### Configurations are not validated -/

theorem NewLimit_neg (L : Int) (h : L < 0) : NewLimit L = none := by
  simp [NewLimit, h]

/-- C12, the claim fails as stated: a negative limit and a requester
configuration with negative capacity, negative interval and zero count are all
accepted by the constructors, and the negative limit makes the first `Allow`
and the first `Try` panic at call time. -/
theorem negative_limit_accepted_then_panics :
    (NewThrottler (-1)).limit = -1 ∧
    (NewRateLimitedRequester (-5) (-Minute) 0).rl = ⟨-5, -Minute, 0⟩ ∧
    (NewThrottler (-1)).Allow "u1" (2 * Minute) = none ∧
    (NewThrottler (-1)).Try "u1" (2 * Minute) (2 * Minute) = none :=
  ⟨rfl, rfl, rfl, rfl⟩

/-- C12 as amended: the constructors keep whatever configuration they are
given and reject nothing.  With the limit 0 no call fails, but in every
reachable state `Allow` returns false and `Try` returns `LimitedErr`.  With a
limit `L < 0` every `Allow` and every `Try` on the new throttler panics at call
time, in the `make` of `NewLimit`. -/
theorem configuration_not_validated (L q iv cnt : Int) (k : String) (now1 now2 : Time) :
    (NewThrottler L).limit = L ∧
    (NewRateLimitedRequester q iv cnt).rl = ⟨q, iv, cnt⟩ ∧
    (L = 0 → ∀ t, Reachable L t →
      (∃ t1, t.Allow k now1 = some (t1, false)) ∧
      ∃ t2, t.Try k now1 now2 = some (t2, LimitedErr)) ∧
    (L < 0 → (NewThrottler L).Allow k now1 = none ∧
      (NewThrottler L).Try k now1 now2 = none) := by
  refine ⟨rfl, rfl, ?_, ?_⟩
  · intro h0 t hreach
    obtain ⟨hwf, hlim⟩ := Reachable_WF L t (by omega) hreach
    obtain ⟨t1, l, hl, _, _, _, hrec⟩ := load_WF t k hwf
    have hnn : (0 : Int) ≤ (inWindow (recordOf t k) now1 : Int) := by positivity
    have hc : ¬ (inWindow (recordOf t k) now1 : Int) < t.limit := by
      rw [hlim, h0]; omega
    refine ⟨⟨t1, ?_⟩, ?_⟩
    · rw [Allow_eq t t1 k l now1 hl, hrec]
      simp [hc]
    · obtain ⟨t2, ht, _⟩ := Try_WF_reject t k now1 now2 hwf hc
      exact ⟨t2, ht⟩
  · intro hneg
    have hload : (NewThrottler L).load k = none := by
      rw [load_of_none _ k rfl]
      show (NewLimit L).map _ = none
      rw [NewLimit_neg L hneg]
      rfl
    constructor
    · simp [Throttler.Allow, hload]
    · simp [Throttler.Try, Throttler.Allow, hload]

/-! ### Two concurrent calls for one key -/

/-- `Try` is `Allow` followed by lines 78-86. -/
theorem Try_eq_Allow_afterAllow (t : Throttler) (k : String) (now1 now2 : Time) :
    t.Try k now1 now2 =
      match t.Allow k now1 with
      | none => none
      | some (t1, allowed) => t1.afterAllow k allowed now2 := by
  unfold Throttler.Try Throttler.afterAllow Throttler.finish
  rfl

/-- C14, the code on a throttler of limit 2 whose key `"u1"` has one free slot
(the count is 1): two concurrent calls whose `Allow` both run before either
appends both read the count 1, both return `nil`, and both timestamps are
appended, although the same two calls made one after the other give `nil` and
`LimitedErr`. -/
theorem concurrent_calls_both_admitted :
    countLoop [0, 2 * Minute] (2 * Minute + Second) = 1 ∧
    oneSlotLeft.limit = 2 ∧
    (concurrentTry2 oneSlotLeft "u1" (2 * Minute + Second) (2 * Minute + 2 * Second)
        (2 * Minute + 3 * Second) (2 * Minute + 4 * Second)).map
      (fun r => (r.1.m "u1", r.2)) =
      some (some ⟨2, [2 * Minute + 3 * Second, 2 * Minute + 4 * Second]⟩, none, none) ∧
    (run oneSlotLeft
        [⟨"u1", 2 * Minute + Second, 2 * Minute + 3 * Second⟩,
         ⟨"u1", 2 * Minute + 3 * Second, 2 * Minute + 4 * Second⟩]).map Prod.snd =
      some [none, LimitedErr] := by
  decide

/-! ### The rate bound -/

theorem run_snoc (cs : List Call) (c : Call) :
    ∀ (t t1 t2 : Throttler) (es : List error) (e : error),
      run t cs = some (t1, es) → t1.Try c.userID c.now1 c.now2 = some (t2, e) →
      run t (cs ++ [c]) = some (t2, es ++ [e]) := by
  induction cs with
  | nil =>
    intro t t1 t2 es e hr ht
    simp only [run, Option.some.injEq, Prod.mk.injEq] at hr
    obtain ⟨rfl, rfl⟩ := hr
    simp [run, ht]
  | cons c0 cs ih =>
    intro t t1 t2 es e hr ht
    obtain ⟨t0, e0, es0, ht0, hr0, rfl⟩ := run_cons_inv t t1 c0 cs es hr
    have := ih t0 t1 t2 es0 e hr0 ht
    rw [List.cons_append, run_cons_eq t t0 c0 _ e0 ht0, this]
    rfl

theorem admittedStamps_snoc (k : String) (cs : List Call) (c : Call) (e : error) :
    ∀ es : List error, es.length = cs.length →
      admittedStamps k (cs ++ [c]) (es ++ [e]) =
        admittedStamps k cs es ++ (if c.userID = k ∧ e = none then [c.now2] else []) := by
  induction cs with
  | nil =>
    intro es hlen
    have : es = [] := List.length_eq_zero.mp hlen
    subst this
    by_cases h : c.userID = k ∧ e = none <;> simp [admittedStamps, h]
  | cons c0 cs ih =>
    intro es hlen
    cases es with
    | nil => simp at hlen
    | cons e0 es =>
      simp only [List.length_cons, Nat.add_right_cancel_iff] at hlen
      have hih := ih es hlen
      show admittedStamps k (c0 :: (cs ++ [c])) (e0 :: (es ++ [e])) = _
      simp only [admittedStamps]
      rw [hih]
      by_cases h0 : c0.userID = k ∧ e0 = none <;> simp [h0]

theorem clockOf_snoc (cs : List Call) (c : Call) :
    clockOf (cs ++ [c]) = clockOf cs ++ [c.now1, c.now2] := by
  induction cs with
  | nil => rfl
  | cons c0 cs ih => simp [clockOf, ih]

theorem admittedStamps_sublist (k : String) (cs : List Call) :
    ∀ es : List error, List.Sublist (admittedStamps k cs es) (clockOf cs) := by
  induction cs with
  | nil => intro es; simp [admittedStamps]
  | cons c cs ih =>
    intro es
    cases es with
    | nil => simp [admittedStamps]
    | cons e es =>
      simp only [admittedStamps, clockOf]
      by_cases h : c.userID = k ∧ e = none
      · simp only [h, and_self, if_true]
        exact List.Sublist.cons _ (List.Sublist.cons₂ _ (ih es))
      · simp only [h, if_false]
        exact List.Sublist.cons _ (List.Sublist.cons _ (ih es))

theorem Spaced_snoc (n : Nat) (W : Int) (S : List Time) (a : Time) (hn : 1 ≤ n)
    (hS : Spaced n W S) (hlast : ∀ i x, i + n = S.length → S[i]? = some x → x + W ≤ a) :
    Spaced n W (S ++ [a]) := by
  intro i x y hx hy
  by_cases h1 : i + n < S.length
  · rw [List.getElem?_append_left (by omega)] at hx
    rw [List.getElem?_append_left h1] at hy
    exact hS i x y hx hy
  · by_cases h2 : i + n = S.length
    · rw [List.getElem?_append_left (by omega)] at hx
      rw [List.getElem?_append_right (by omega), h2] at hy
      simp only [Nat.sub_self, List.getElem?_cons_zero, Option.some.injEq] at hy
      rw [← hy]
      exact hlast i x h2 hx
    · rw [List.getElem?_eq_none (by simp; omega)] at hy
      cases hy

/-- Under a non-decreasing clock, a run of a new throttler returns, and the
timestamps of the admitted calls of a key are spaced: each one and the one
`L` admissions later are at least one minute apart. -/
theorem run_spaced (L : Int) (hL : 1 ≤ L) (k : String) (cs : List Call) :
    NonDecreasing (clockOf cs) →
      ∃ t es, run (NewThrottler L) cs = some (t, es) ∧ es.length = cs.length ∧
        Spaced L.toNat Minute (admittedStamps k cs es) := by
  induction cs using List.reverseRecOn with
  | nil =>
    intro _
    refine ⟨NewThrottler L, [], rfl, rfl, ?_⟩
    intro i x y hx _
    simp [admittedStamps] at hx
  | append_singleton cs c ih =>
    intro hclock
    rw [clockOf_snoc] at hclock
    have hpre : NonDecreasing (clockOf cs) := (List.pairwise_append.mp hclock).1
    have h12 : c.now1 ≤ c.now2 := by
      have := (List.pairwise_append.mp hclock).2.1
      simp only [List.pairwise_cons, List.mem_singleton, forall_eq] at this
      exact this.1
    obtain ⟨t, es, hr, hlen, hsp⟩ := ih hpre
    have hL0 : (0 : Int) ≤ L := by omega
    obtain ⟨hwf, hlim⟩ := Reachable_WF L t hL0 ⟨cs, es, hr⟩
    obtain ⟨t2, e, ht, _, _, hadm, _, _⟩ := Try_WF t c.userID c.now1 c.now2 hwf
    refine ⟨t2, es ++ [e], run_snoc cs c _ t t2 es e hr ht, by simp [hlen], ?_⟩
    rw [admittedStamps_snoc k cs c e es hlen]
    by_cases hk : c.userID = k ∧ e = none
    · obtain ⟨rfl, rfl⟩ := hk
      simp only [and_self, if_true]
      apply Spaced_snoc _ _ _ _ (by omega) hsp
      intro i x hi hx
      have hrec : recordOf t c.userID = (admittedStamps c.userID cs es).drop i := by
        rw [run_recordOf c.userID cs (NewThrottler L) t es (WF_NewThrottler L hL0) hr,
          recordOf_NewThrottler]
        unfold lastN
        have hn : (NewThrottler L).limit.toNat = L.toNat := rfl
        have e1 : (List.replicate L.toNat zeroTime ++ admittedStamps c.userID cs es).length
            - (NewThrottler L).limit.toNat
            = (List.replicate L.toNat zeroTime).length + i := by
          simp only [List.length_append, List.length_replicate, hn]
          omega
        rw [e1, List.drop_append]
      have hsorted : (recordOf t c.userID).Pairwise (· ≤ ·) := by
        obtain ⟨t', es', hr', hs⟩ := run_NewThrottler_sorted L hL0 cs hpre
        rw [hr] at hr'
        simp only [Option.some.injEq, Prod.mk.injEq] at hr'
        rw [hr'.1]
        exact (hs c.userID).1
      have hlt := hadm.mp rfl
      rw [← recordOf_length t c.userID hwf] at hlt
      obtain ⟨z, hz, hzle⟩ := exists_not_counted _ _ (by exact_mod_cast hlt)
      have hxz : x ≤ z := by
        have hi' : i < (admittedStamps c.userID cs es).length :=
          (List.getElem?_eq_some_iff.mp hx).1
        rw [hrec, List.drop_eq_getElem_cons hi'] at hz hsorted
        have hxe : (admittedStamps c.userID cs es)[i] = x := by
          have := (List.getElem?_eq_some_iff.mp hx).2
          exact this
        rw [hxe] at hz hsorted
        rcases List.mem_cons.mp hz with rfl | hz'
        · exact le_refl _
        · exact (List.pairwise_cons.mp hsorted).1 z hz'
      linarith
    · simp only [hk, if_false, List.append_nil]
      exact hsp

theorem Spaced_tail (n : Nat) (W : Int) (x : Time) (S : List Time)
    (h : Spaced n W (x :: S)) : Spaced n W S := by
  intro i a b ha hb
  apply h (i + 1) a b
  · simpa using ha
  · have : i + 1 + n = (i + n) + 1 := by omega
    rw [this]
    simpa using hb

theorem countP_le_of_drop (p : Time → Bool) (S : List Time) (n : Nat)
    (h : ∀ y ∈ S.drop n, p y = false) : S.countP p ≤ n := by
  have h1 : S.countP p = (S.take n).countP p + (S.drop n).countP p := by
    rw [← List.countP_append, List.take_append_drop]
  have h2 : (S.drop n).countP p = 0 := by
    rw [List.countP_eq_zero]
    intro a ha
    simp [h a ha]
  have h3 := List.countP_le_length (p := p) (l := S.take n)
  have h4 : (S.take n).length ≤ n := by simp
  omega

/-- In a chronological list of spaced timestamps no window `(a, a + Minute]`
holds more than `n` of them. -/
theorem inSpan_le_of_Spaced (n : Nat) (S : List Time) (a : Time) :
    S.Pairwise (· ≤ ·) → Spaced n Minute S → inSpan S a ≤ n := by
  induction S with
  | nil => intro _ _; simp [inSpan]
  | cons x S ih =>
    intro hsorted hsp
    by_cases hx : a < x ∧ x ≤ a + Minute
    · apply countP_le_of_drop
      intro y hy
      simp only [decide_eq_false_iff_not, not_and, not_le]
      intro _
      cases hd : (x :: S).drop n with
      | nil => rw [hd] at hy; cases hy
      | cons y0 rest =>
        have hy0 : (x :: S)[0 + n]? = some y0 := by
          have h0 : ((x :: S).drop n)[0]? = some y0 := by rw [hd]; simp
          rw [List.getElem?_drop] at h0
          rw [Nat.zero_add]
          exact h0
        have hgap := hsp 0 x y0 (List.getElem?_cons_zero) hy0
        have hsd : ((x :: S).drop n).Pairwise (· ≤ ·) :=
          List.Pairwise.sublist (List.drop_sublist _ _) hsorted
        rw [hd] at hy hsd
        have hy0y : y0 ≤ y := by
          rcases List.mem_cons.mp hy with rfl | hy'
          · exact le_refl _
          · exact (List.pairwise_cons.mp hsd).1 y hy'
        linarith [hx.2]
    · have := ih (List.pairwise_cons.mp hsorted).2 (Spaced_tail n Minute x S hsp)
      unfold inSpan at this ⊢
      rw [List.countP_cons]
      simp only [hx, decide_False, Bool.false_eq_true, if_false, Nat.add_zero]
      exact this

/-- C15: for `1 ≤ L`, every key and every run of `Try` calls on
`NewThrottler L` under a non-decreasing clock, the run returns, and of the
timestamps recorded for the admitted calls of the key any `L + 1` consecutive
ones have their first and last at least one minute apart, so that no half-open
window `(a, a + Minute]` holds more than `L` of them. -/
theorem rate_bound (L : Int) (hL : 1 ≤ L) (k : String) (cs : List Call)
    (hclock : NonDecreasing (clockOf cs)) :
    ∃ t es, run (NewThrottler L) cs = some (t, es) ∧
      (∀ i x y, (admittedStamps k cs es)[i]? = some x →
        (admittedStamps k cs es)[i + L.toNat]? = some y → x + Minute ≤ y) ∧
      ∀ a : Time, (inSpan (admittedStamps k cs es) a : Int) ≤ L := by
  obtain ⟨t, es, hr, _, hsp⟩ := run_spaced L hL k cs hclock
  refine ⟨t, es, hr, hsp, fun a => ?_⟩
  have hsorted : (admittedStamps k cs es).Pairwise (· ≤ ·) :=
    List.Pairwise.sublist (admittedStamps_sublist k cs es) hclock
  have := inSpan_le_of_Spaced L.toNat (admittedStamps k cs es) a hsorted hsp
  omega

theorem rate_bound_witness :
    (1 : Int) ≤ 2 ∧ NonDecreasing (clockOf (scenarioU1 Minute)) ∧
    (run (NewThrottler 2) (scenarioU1 Minute)).map
        (fun r => admittedStamps "u1" (scenarioU1 Minute) r.2)
      = some [Minute, Minute + 10 * Second, Minute + 61 * Second] ∧
    ∃ t es, run (NewThrottler 2) (scenarioU1 Minute) = some (t, es) ∧
      (∀ i x y, (admittedStamps "u1" (scenarioU1 Minute) es)[i]? = some x →
        (admittedStamps "u1" (scenarioU1 Minute) es)[i + (2 : Int).toNat]? = some y →
        x + Minute ≤ y) ∧
      ∀ a : Time, (inSpan (admittedStamps "u1" (scenarioU1 Minute) es) a : Int) ≤ 2 :=
  ⟨by decide, by decide, by decide,
    rate_bound 2 (by decide) "u1" (scenarioU1 Minute) (by decide)⟩

/-! ## Further claims about the requester -/

/-! ### The counter is never reset -/

/-- No step of the system lowers the counter `c`. -/
theorem step_c_mono (d d2 : RateLimitedRequester) (ev : Event) (h : step d ev = some d2) :
    d.c ≤ d2.c := by
  cases ev with
  | startCall =>
    simp only [step] at h
    split at h <;> cases h
    exact le_refl _
  | loopSpawn =>
    simp only [step] at h
    split at h <;> cases h
    exact le_refl _
  | loopCheck =>
    simp only [step] at h
    split at h
    · split at h <;> (cases h; exact le_refl _)
    · cases h
  | loopWake =>
    simp only [step] at h
    split at h <;> cases h
    exact le_refl _
  | sendCall r =>
    simp only [step] at h
    split at h <;> (cases h; exact le_refl _)
  | enqueue i =>
    simp only [step] at h
    split at h <;> cases h
    exact le_refl _
  | dequeue =>
    simp only [step] at h
    split at h
    · cases h
    · split at h <;> cases h
      exact le_refl _
  | handoff i =>
    simp only [step] at h
    split at h <;> cases h
    exact le_refl _
  | workerInc i =>
    simp only [step] at h
    split at h <;> cases h
    show d.c ≤ d.c + 1
    omega
  | workerDo i resp err =>
    simp only [step] at h
    split at h <;> cases h
    exact le_refl _
  | workerDeliver i =>
    simp only [step] at h
    split at h <;> cases h
    exact le_refl _
  | sendReturn i =>
    simp only [step] at h
    split at h <;> cases h
    exact le_refl _

/-- C16, the code on the requester of `main` (`Count` 2): after two requests
the loop of `Start` reads `c == Count` and sleeps.  When it wakes up the
counter is still 2, not 0; with no further request the very next round reads
`c == Count` again and sleeps again.  And when two more requests were served
during the sleep the counter is 4 on waking, and the next rounds of the loop
do not pause. -/
theorem counter_not_reset_after_pause :
    (∃ d1 d2, runTrace mainRequester pauseOnce = some d1 ∧
      d1.loop = LoopPC.spawn ∧ d1.pauses = 1 ∧ d1.c = 2 ∧ d1.log.length = 2 ∧
      runTrace d1 [Event.loopSpawn, Event.loopCheck] = some d2 ∧
      d2.loop = LoopPC.sleeping ∧ d2.c = 2 ∧ d2.log.length = 2) ∧
    ∃ d3, runTrace mainRequester overrun = some d3 ∧
      d3.pauses = 1 ∧ d3.c = 4 ∧ d3.log.map (·.pauses) = [0, 0, 0, 0] ∧
      d3.loop = LoopPC.spawn := by
  refine ⟨⟨_, _, rfl, ?_, ?_, ?_, ?_, rfl, ?_⟩, ⟨_, rfl, ?_⟩⟩ <;> decide

/-! ### Single delivery -/

theorem count_snoc (a ev : Event) (pre : List Event) :
    (pre ++ [ev]).count a = pre.count a + (if ev = a then 1 else 0) := by
  rw [List.count_append, List.count_singleton]
  by_cases h : ev = a <;> simp [h]

theorem phaseOf_append_eq (d : RateLimitedRequester) (sc : SendCall) (j : Nat) :
    ({ d with sends := d.sends ++ [sc] } : RateLimitedRequester).phaseOf j =
      if j < d.sends.length then d.phaseOf j
      else if j = d.sends.length then some sc.phase else none := by
  unfold RateLimitedRequester.phaseOf
  simp only [List.getElem?_append]
  by_cases hj : j < d.sends.length
  · simp only [hj, if_true]
  · simp only [hj, if_false]
    by_cases h0 : j = d.sends.length
    · simp [h0]
    · simp only [h0, if_false]
      obtain ⟨n, hn⟩ := Nat.exists_eq_succ_of_ne_zero (show j - d.sends.length ≠ 0 by omega)
      rw [hn]
      simp

theorem phaseOf_ge (d : RateLimitedRequester) (j : Nat) (h : d.sends.length ≤ j) :
    d.phaseOf j = none := by
  unfold RateLimitedRequester.phaseOf
  rw [List.getElem?_eq_none h]
  rfl

/-- The effect of moving call `i` from phase `ph0` to phase `ph1` by an event
that is neither a loop event nor `dequeue`. -/
theorem ChanInv_move (pre : List Event) (d d1 : RateLimitedRequester) (i : Nat)
    (ph0 ph1 : Phase) (ev : Event) (hc : ChanInv pre d) (hs : d1.sends = d.sends)
    (h0 : d.phaseOf i = some ph0) (hdq : ev ≠ Event.dequeue)
    (hh : ∀ j, (if ev = Event.handoff j then 1 else 0)
      = if j = i then handedTo (some ph1) - handedTo (some ph0) else 0)
    (hd : ∀ j, (if ev = Event.workerDeliver j then 1 else 0)
      = if j = i then outcomesOn (some ph1) - outcomesOn (some ph0) else 0)
    (hr : ∀ j, (if ev = Event.sendReturn j then 1 else 0)
      = if j = i then closedTimes (some ph1) - closedTimes (some ph0) else 0)
    (m1 : handedTo (some ph0) ≤ handedTo (some ph1))
    (m2 : outcomesOn (some ph0) ≤ outcomesOn (some ph1))
    (m3 : closedTimes (some ph0) ≤ closedTimes (some ph1)) :
    ChanInv (pre ++ [ev]) (d1.setPhase i ph1) := by
  have h1 : d1.phaseOf i = some ph0 := by
    unfold RateLimitedRequester.phaseOf at h0 ⊢
    rw [hs]; exact h0
  refine ⟨?_, fun j => ?_⟩
  · rw [count_snoc, hc.1, if_neg hdq]
  · rw [count_snoc, count_snoc, count_snoc, (hc.2 j).1, (hc.2 j).2.1, (hc.2 j).2.2, hh j, hd j,
      hr j]
    by_cases hj : j = i
    · subst hj
      rw [phaseOf_setPhase_same d1 j ph1 ph0 h1, h0]
      simp only [if_true]
      omega
    · rw [phaseOf_setPhase_ne d1 i j ph1 (fun h => hj h.symm)]
      have : d1.phaseOf j = d.phaseOf j := by
        unfold RateLimitedRequester.phaseOf
        rw [hs]
      rw [this]
      simp [hj]

theorem ChanInv_same (pre : List Event) (d d1 : RateLimitedRequester) (ev : Event)
    (hc : ChanInv pre d) (hp : ∀ j, handedTo (d1.phaseOf j) = handedTo (d.phaseOf j) ∧
      outcomesOn (d1.phaseOf j) = outcomesOn (d.phaseOf j) ∧
      closedTimes (d1.phaseOf j) = closedTimes (d.phaseOf j))
    (hdq : ev ≠ Event.dequeue) (hh : ∀ j, ev ≠ Event.handoff j)
    (hd : ∀ j, ev ≠ Event.workerDeliver j) (hr : ∀ j, ev ≠ Event.sendReturn j) :
    ChanInv (pre ++ [ev]) d1 := by
  refine ⟨?_, fun j => ?_⟩
  · rw [count_snoc, hc.1, if_neg hdq]
  · rw [count_snoc, count_snoc, count_snoc, if_neg (hh j), if_neg (hd j), if_neg (hr j),
      (hc.2 j).1, (hc.2 j).2.1, (hc.2 j).2.2, (hp j).1, (hp j).2.1, (hp j).2.2]
    simp

/-- Every step extends the schedule by its event and keeps the link between
the schedule and the state. -/
theorem step_ChanInv (d d2 : RateLimitedRequester) (ev : Event) (pre : List Event)
    (hinv : LogInv d) (hc : ChanInv pre d) (h : step d ev = some d2) :
    ChanInv (pre ++ [ev]) d2 := by
  cases ev with
  | startCall =>
    simp only [step] at h
    split at h
    · cases h
      exact ChanInv_same pre d _ _ hc (fun _ => ⟨rfl, rfl, rfl⟩) (by simp) (by simp) (by simp)
        (by simp)
    · cases h
  | loopSpawn =>
    simp only [step] at h
    split at h
    · cases h
      exact ChanInv_same pre d _ _ hc (fun _ => ⟨rfl, rfl, rfl⟩) (by simp) (by simp) (by simp)
        (by simp)
    · cases h
  | loopCheck =>
    simp only [step] at h
    split at h
    · split at h <;>
        (cases h
         exact ChanInv_same pre d _ _ hc (fun _ => ⟨rfl, rfl, rfl⟩) (by simp) (by simp)
           (by simp) (by simp))
    · cases h
  | loopWake =>
    simp only [step] at h
    split at h
    · cases h
      exact ChanInv_same pre d _ _ hc (fun _ => ⟨rfl, rfl, rfl⟩) (by simp) (by simp) (by simp)
        (by simp)
    · cases h
  | sendCall r =>
    have key : ∀ sc : SendCall, (sc.phase = Phase.rejected ∨ sc.phase = Phase.sending) →
        ChanInv (pre ++ [Event.sendCall r])
          ({ d with sends := d.sends ++ [sc] } : RateLimitedRequester) := by
      intro sc hsc
      apply ChanInv_same pre d _ _ hc _ (by simp) (by simp) (by simp) (by simp)
      intro j
      rw [phaseOf_append_eq]
      by_cases hj : j < d.sends.length
      · simp only [hj, if_true, and_self]
      · simp only [hj, if_false]
        rw [phaseOf_ge d j (by omega)]
        by_cases h0 : j = d.sends.length
        · simp only [h0, if_true]
          rcases hsc with h1 | h1 <;> rw [h1] <;> exact ⟨rfl, rfl, rfl⟩
        · simp only [h0, if_false, and_self]
    simp only [step] at h
    split at h
    · cases h; exact key _ (Or.inl rfl)
    · cases h; exact key _ (Or.inr rfl)
  | enqueue i =>
    simp only [step] at h
    split at h
    · rename_i hcond
      rw [hinv.1] at hcond
      exact absurd hcond.2 (Nat.not_lt_zero _)
    · cases h
  | dequeue =>
    simp only [step, hinv.2.1] at h
    cases h
  | handoff i =>
    simp only [step] at h
    split at h
    · rename_i hcond
      cases h
      apply ChanInv_move pre d _ i Phase.sending Phase.received _ hc rfl hcond.1 (by simp)
      · intro j
        by_cases hj : j = i
        · subst hj; simp [handedTo]
        · have : ¬ i = j := fun hh => hj hh.symm
          simp [hj, this]
      · intro j; simp [outcomesOn]
      · intro j; simp [closedTimes]
      · simp [handedTo]
      · simp [outcomesOn]
      · simp [closedTimes]
    · cases h
  | workerInc i =>
    simp only [step] at h
    split at h
    · rename_i hcond
      cases h
      apply ChanInv_move pre d _ i Phase.received Phase.counted _ hc rfl hcond (by simp)
      · intro j; simp [handedTo]
      · intro j; simp [outcomesOn]
      · intro j; simp [closedTimes]
      · simp [handedTo]
      · simp [outcomesOn]
      · simp [closedTimes]
    · cases h
  | workerDo i resp err =>
    simp only [step] at h
    split at h
    · rename_i hcond
      cases h
      apply ChanInv_move pre d _ i Phase.counted (Phase.executed ⟨resp, err⟩) _ hc rfl hcond
        (by simp)
      · intro j; simp [handedTo]
      · intro j; simp [outcomesOn]
      · intro j; simp [closedTimes]
      · simp [handedTo]
      · simp [outcomesOn]
      · simp [closedTimes]
    · cases h
  | workerDeliver i =>
    simp only [step] at h
    split at h
    · rename_i respErr hcond
      cases h
      apply ChanInv_move pre d _ i (Phase.executed respErr) (Phase.delivered respErr) _ hc rfl
        hcond (by simp)
      · intro j; simp [handedTo]
      · intro j
        by_cases hj : j = i
        · subst hj; simp [outcomesOn]
        · have : ¬ i = j := fun hh => hj hh.symm
          simp [hj, this]
      · intro j; simp [closedTimes]
      · simp [handedTo]
      · simp [outcomesOn]
      · simp [closedTimes]
    · cases h
  | sendReturn i =>
    simp only [step] at h
    split at h
    · rename_i respErr hcond
      cases h
      apply ChanInv_move pre d _ i (Phase.delivered respErr)
        (Phase.returned (sendResult respErr).1 (sendResult respErr).2) _ hc rfl hcond (by simp)
      · intro j; simp [handedTo]
      · intro j; simp [outcomesOn]
      · intro j
        by_cases hj : j = i
        · subst hj; simp [closedTimes]
        · have : ¬ i = j := fun hh => hj hh.symm
          simp [hj, this]
      · simp [handedTo]
      · simp [outcomesOn]
      · simp [closedTimes]
    · cases h

theorem ChanInv_New (q iv cnt : Int) : ChanInv [] (NewRateLimitedRequester q iv cnt) := by
  refine ⟨rfl, fun i => ?_⟩
  have : (NewRateLimitedRequester q iv cnt).phaseOf i = none := rfl
  rw [this]
  exact ⟨rfl, rfl, rfl⟩

theorem runTrace_ChanInv (tr : List Event) :
    ∀ (d d2 : RateLimitedRequester) (pre : List Event), LogInv d → ChanInv pre d →
      runTrace d tr = some d2 → ChanInv (pre ++ tr) d2 := by
  induction tr with
  | nil =>
    intro d d2 pre _ hc h
    simp only [runTrace, Option.some.injEq] at h
    rw [List.append_nil, ← h]
    exact hc
  | cons ev evs ih =>
    intro d d2 pre hinv hc h
    simp only [runTrace] at h
    cases hs : step d ev with
    | none => simp [hs] at h
    | some d1 =>
      simp only [hs] at h
      have := ih d1 d2 (pre ++ [ev]) (step_LogInv d d1 ev hinv hs)
        (step_ChanInv d d1 ev pre hinv hc hs) h
      rw [List.append_assoc] at this
      exact this

theorem runTrace_append_inv (a b : List Event) :
    ∀ d d2 : RateLimitedRequester, runTrace d (a ++ b) = some d2 →
      ∃ d1, runTrace d a = some d1 ∧ runTrace d1 b = some d2 := by
  induction a with
  | nil => intro d d2 h; exact ⟨d, rfl, h⟩
  | cons ev evs ih =>
    intro d d2 h
    simp only [List.cons_append, runTrace] at h ⊢
    cases hs : step d ev with
    | none => simp [hs] at h
    | some d1 =>
      simp only [hs] at h ⊢
      exact ih d1 d2 h

/-- A schedule from a new requester leads to a state linked to it. -/
theorem reach_ChanInv (q iv cnt : Int) (tr : List Event) (d : RateLimitedRequester)
    (h : runTrace (NewRateLimitedRequester q iv cnt) tr = some d) :
    LogInv d ∧ ChanInv tr d := by
  refine ⟨runTrace_LogInv tr _ d (LogInv_New q iv cnt) h, ?_⟩
  have := runTrace_ChanInv tr _ d [] (LogInv_New q iv cnt) (ChanInv_New q iv cnt) h
  simpa using this

theorem handedTo_le (ph : Option Phase) : handedTo ph ≤ 1 := by
  cases ph with
  | none => simp [handedTo]
  | some p => cases p <;> simp [handedTo]

theorem outcomesOn_le (ph : Option Phase) : outcomesOn ph ≤ 1 := by
  cases ph with
  | none => simp [outcomesOn]
  | some p => cases p <;> simp [outcomesOn]

theorem closedTimes_le (ph : Option Phase) : closedTimes ph ≤ 1 := by
  cases ph with
  | none => simp [closedTimes]
  | some p => cases p <;> simp [closedTimes]

theorem step_workerDeliver_inv (d d2 : RateLimitedRequester) (i : Nat)
    (h : step d (Event.workerDeliver i) = some d2) :
    ∃ respErr, d.phaseOf i = some (Phase.executed respErr) := by
  simp only [step] at h
  split at h
  · rename_i respErr hcond
    exact ⟨respErr, hcond⟩
  · cases h

theorem step_sendReturn_inv (d d2 : RateLimitedRequester) (i : Nat)
    (h : step d (Event.sendReturn i) = some d2) :
    ∃ respErr, d.phaseOf i = some (Phase.delivered respErr) := by
  simp only [step] at h
  split at h
  · rename_i respErr hcond
    exact ⟨respErr, hcond⟩
  · cases h

theorem runTrace_head_step (d d2 : RateLimitedRequester) (ev : Event) (evs : List Event)
    (h : runTrace d (ev :: evs) = some d2) : ∃ d1, step d ev = some d1 := by
  simp only [runTrace] at h
  cases hs : step d ev with
  | none => simp [hs] at h
  | some d1 => exact ⟨d1, rfl⟩

/-- C11: in every schedule from a new requester and for every call `i` of
`Send`: its request is handed to at most one worker and never taken from a
buffer; its result channel receives at most one outcome and is closed at most
once; an outcome is sent only after the one hand-over and when none was sent
before; the channel is closed only after the one outcome was received; a call
that returned with the executor's result had exactly one hand-over, one
outcome and one closing; and once a worker holds the request, worker and
`Send` run on without waiting and the channel receives its one outcome. -/
theorem single_delivery (q iv cnt : Int) (tr : List Event) (d : RateLimitedRequester)
    (hrun : runTrace (NewRateLimitedRequester q iv cnt) tr = some d) (i : Nat) :
    tr.count Event.dequeue = 0 ∧ tr.count (Event.handoff i) ≤ 1 ∧
    tr.count (Event.workerDeliver i) ≤ 1 ∧ tr.count (Event.sendReturn i) ≤ 1 ∧
    (∀ tr1 tr2, tr = tr1 ++ Event.workerDeliver i :: tr2 →
      tr1.count (Event.handoff i) = 1 ∧ tr1.count (Event.workerDeliver i) = 0) ∧
    (∀ tr1 tr2, tr = tr1 ++ Event.sendReturn i :: tr2 →
      tr1.count (Event.workerDeliver i) = 1 ∧ tr1.count (Event.sendReturn i) = 0) ∧
    (∀ resp err, d.phaseOf i = some (Phase.returned resp err) →
      tr.count (Event.handoff i) = 1 ∧ tr.count (Event.workerDeliver i) = 1 ∧
        tr.count (Event.sendReturn i) = 1) ∧
    (d.phaseOf i = some Phase.received →
      tr.count (Event.handoff i) = 1 ∧ tr.count (Event.workerDeliver i) = 0 ∧
      ∀ resp err, ∃ d2,
        runTrace d [Event.workerInc i, Event.workerDo i resp err, Event.workerDeliver i,
          Event.sendReturn i] = some d2 ∧
        (tr ++ [Event.workerInc i, Event.workerDo i resp err, Event.workerDeliver i,
          Event.sendReturn i]).count (Event.workerDeliver i) = 1) := by
  obtain ⟨hinv, hc⟩ := reach_ChanInv q iv cnt tr d hrun
  refine ⟨hc.1, ?_, ?_, ?_, ?_, ?_, ?_, ?_⟩
  · rw [(hc.2 i).1]; exact handedTo_le _
  · rw [(hc.2 i).2.1]; exact outcomesOn_le _
  · rw [(hc.2 i).2.2]; exact closedTimes_le _
  · intro tr1 tr2 htr
    rw [htr] at hrun
    obtain ⟨d1, h1, h2⟩ := runTrace_append_inv tr1 _ _ d hrun
    obtain ⟨_, hc1⟩ := reach_ChanInv q iv cnt tr1 d1 h1
    obtain ⟨d1', hstep⟩ := runTrace_head_step d1 d _ _ h2
    obtain ⟨respErr, hph⟩ := step_workerDeliver_inv d1 d1' i hstep
    rw [(hc1.2 i).1, (hc1.2 i).2.1, hph]
    exact ⟨rfl, rfl⟩
  · intro tr1 tr2 htr
    rw [htr] at hrun
    obtain ⟨d1, h1, h2⟩ := runTrace_append_inv tr1 _ _ d hrun
    obtain ⟨_, hc1⟩ := reach_ChanInv q iv cnt tr1 d1 h1
    obtain ⟨d1', hstep⟩ := runTrace_head_step d1 d _ _ h2
    obtain ⟨respErr, hph⟩ := step_sendReturn_inv d1 d1' i hstep
    rw [(hc1.2 i).2.1, (hc1.2 i).2.2, hph]
    exact ⟨rfl, rfl⟩
  · intro resp err hph
    rw [(hc.2 i).1, (hc.2 i).2.1, (hc.2 i).2.2, hph]
    exact ⟨rfl, rfl, rfl⟩
  · intro hph
    refine ⟨by rw [(hc.2 i).1, hph]; rfl, by rw [(hc.2 i).2.1, hph]; rfl, ?_⟩
    intro resp err
    obtain ⟨d2, hr2, _, _⟩ := serve_received d i resp err hinv hph
    refine ⟨d2, hr2, ?_⟩
    rw [List.count_append, (hc.2 i).2.1, hph]
    simp [outcomesOn, List.count_cons]

theorem single_delivery_witness :
    runTrace (NewRateLimitedRequester 5 (1 * Minute) 2) serveOne = some afterServeOne ∧
    serveOne.count (Event.handoff 0) = 1 ∧ serveOne.count (Event.workerDeliver 0) = 1 ∧
    (serveOne.count Event.dequeue = 0 ∧ serveOne.count (Event.handoff 0) ≤ 1 ∧
    serveOne.count (Event.workerDeliver 0) ≤ 1 ∧ serveOne.count (Event.sendReturn 0) ≤ 1 ∧
    (∀ tr1 tr2, serveOne = tr1 ++ Event.workerDeliver 0 :: tr2 →
      tr1.count (Event.handoff 0) = 1 ∧ tr1.count (Event.workerDeliver 0) = 0) ∧
    (∀ tr1 tr2, serveOne = tr1 ++ Event.sendReturn 0 :: tr2 →
      tr1.count (Event.workerDeliver 0) = 1 ∧ tr1.count (Event.sendReturn 0) = 0) ∧
    (∀ resp err, afterServeOne.phaseOf 0 = some (Phase.returned resp err) →
      serveOne.count (Event.handoff 0) = 1 ∧ serveOne.count (Event.workerDeliver 0) = 1 ∧
        serveOne.count (Event.sendReturn 0) = 1) ∧
    (afterServeOne.phaseOf 0 = some Phase.received →
      serveOne.count (Event.handoff 0) = 1 ∧ serveOne.count (Event.workerDeliver 0) = 0 ∧
      ∀ resp err, ∃ d2,
        runTrace afterServeOne [Event.workerInc 0, Event.workerDo 0 resp err,
          Event.workerDeliver 0, Event.sendReturn 0] = some d2 ∧
        (serveOne ++ [Event.workerInc 0, Event.workerDo 0 resp err, Event.workerDeliver 0,
          Event.sendReturn 0]).count (Event.workerDeliver 0) = 1)) :=
  ⟨run_serveOne, by decide, by decide,
    single_delivery 5 (1 * Minute) 2 serveOne afterServeOne run_serveOne 0⟩

/-! ## Evaluation checks -/

example : (NewLimit 2).map (·.lastReqs) = some [0, 0] := by decide
example : AddReq ⟨3, [1, 2, 3]⟩ 9 = some ⟨3, [2, 3, 9]⟩ := by decide
example : AddReq ⟨3, [1, 2]⟩ 9 = some ⟨3, [1, 2, 9]⟩ := by decide
example : AddReq ⟨0, []⟩ 9 = none := by decide
example : countLoop [0, 5, 7] (Minute + 5) = 1 := by decide
example : (((NewThrottler 2).Try "u1" Minute Minute).bind
    (fun p => p.1.m "u1")).map (·.lastReqs) = some [0, Minute] := by decide

end Throttling
